import Mathlib

/-!
# Verification of the openlet-research text-extraction and alignment core

Shallow embedding of the parsing/eval core of the repository:

* `src/question.py` — `parse_llm_output` (question extraction used by the
  generation pipeline), embedded in namespace `QPy`;
* `src/demo/functions/parser.py` — `parse_llm_output` (demo extractor,
  namespace `Demo`), `fix_broken_quotes`, `parse_knowledge_graph`,
  `_ensure_list`;
* `src/eval.py` — `format_question_text`, `compute_lexical_recall`,
  `compute_bi_encoder_score`, `compute_bleurt_score`, `evaluate_sample`.

Strings are processed as `List Char`; every scanning function is written
with structural recursion (or an explicit fuel bounded by the input
length) so that concrete runs reduce inside the kernel.  External
capabilities (the PyYAML loader, the BLEU/ROUGE/cosine/BLEURT scorers)
are parameters, as the spec treats them as opaque collaborators.
-/

/-! ## Python string primitives -/

/-- Python's whitespace class `\s` restricted to ASCII: space, tab,
newline, carriage return, vertical tab, form feed.  (Unicode whitespace
is not exercised by any input considered here.) -/
def pySpaceChars : List Char := [' ', '\t', '\n', '\r', '\x0b', '\x0c']

def pyIsSpace (c : Char) : Bool :=
  pySpaceChars.contains c

/-- Python `str.strip()`: drop leading and trailing whitespace. -/
def pyStrip (cs : List Char) : List Char :=
  ((cs.dropWhile pyIsSpace).reverse.dropWhile pyIsSpace).reverse

/-- Python `str.upper()` (ASCII). -/
def pyUpper (cs : List Char) : List Char := cs.map Char.toUpper

/-- Python `str.lower()` (ASCII). -/
def pyLower (cs : List Char) : List Char := cs.map Char.toLower

/-- Python `str.split("\n")`. -/
def splitNL : List Char → List (List Char)
  | [] => [[]]
  | c :: rest =>
    if c = '\n' then [] :: splitNL rest
    else
      match splitNL rest with
      | [] => [[c]]
      | l :: ls => (c :: l) :: ls

/-- Python `"\n".join(...)`. -/
def joinNL : List (List Char) → List Char
  | [] => []
  | [l] => l
  | l :: ls => l ++ '\n' :: joinNL ls

/-- Python `str.split("###")` (the concrete separator both parsers use). -/
def splitHashesAux : List Char → List Char → List (List Char)
  | '#' :: '#' :: '#' :: rest, acc => acc.reverse :: splitHashesAux rest []
  | c :: rest, acc => splitHashesAux rest (c :: acc)
  | [], acc => [acc.reverse]

def splitHashes (cs : List Char) : List (List Char) := splitHashesAux cs []

/-- Python `line.startswith(pat)`. -/
def startsWithB (l pat : List Char) : Bool := pat.isPrefixOf l

/-- Python `pat in s` (substring containment). -/
def containsSub (pat : List Char) : List Char → Bool
  | [] => pat.isEmpty
  | c :: rest => pat.isPrefixOf (c :: rest) || containsSub pat rest

/-- Drop the head character when it satisfies `p` (an optional
single-character regex atom such as `[.)/]?`). -/
def dropIf (p : Char → Bool) : List Char → List Char
  | [] => []
  | c :: r => if p c then r else c :: r

/-! ## Heading normalization (`re.sub(r"^#{lo,4}\s+", "###", out, re.MULTILINE)`)

`src/question.py:89` uses `#{1,4}`, `src/demo/functions/parser.py:324`
uses `#{2,4}`; `lo` is that lower bound.  A hash run of length `k`
matches only when `lo ≤ k ≤ 4` (for `k ≥ 5` the character after at most
four consumed hashes is another hash, never whitespace, so every
backtracking choice fails).  The greedy `\s+` may cross line ends; the
scanner resumes at line start exactly when the last consumed whitespace
character was a newline. -/

/-- Try to match `#{lo,4}\s+` at the head of `cs`; on success return
whether the last consumed character was a newline, and the rest. -/
def matchHeading (lo : Nat) (cs : List Char) : Option (Bool × List Char) :=
  let hs := cs.takeWhile (· == '#')
  if lo ≤ hs.length ∧ hs.length ≤ 4 then
    let r := cs.drop hs.length
    let ws := r.takeWhile pyIsSpace
    if ws.isEmpty then none
    else some ((ws.getLastD ' ') == '\n', r.drop ws.length)
  else none

/-- One left-to-right `re.sub` pass.  `fuel` only bounds the recursion;
every step consumes at least one character, so `fuel = length + 1`
never runs out. -/
def normAux (lo : Nat) : Nat → Bool → List Char → List Char
  | 0, _, cs => cs
  | _ + 1, _, [] => []
  | fuel + 1, atStart, c :: cs =>
    if atStart then
      match matchHeading lo (c :: cs) with
      | some (nl, rest) => '#' :: '#' :: '#' :: normAux lo fuel nl rest
      | none => c :: normAux lo fuel (c == '\n') cs
    else c :: normAux lo fuel (c == '\n') cs

/-- Heading normalization of a whole output string. -/
def pyNormalizeHeadings (lo : Nat) (s : String) : String :=
  ⟨normAux lo (s.data.length + 1) true s.data⟩

/-! ## Shared question-block pieces -/

/-- Strip a leading `\d+\.\s+` ordinal (`re.sub(r"^\d+\.\s+", "", content)`). -/
def stripLeadingNumber (cs : List Char) : List Char :=
  let ds := cs.takeWhile Char.isDigit
  if ds.isEmpty then cs
  else
    match cs.drop ds.length with
    | '.' :: r =>
      let ws := r.takeWhile pyIsSpace
      if ws.isEmpty then cs else r.drop ws.length
    | _ => cs

/-- Collapse every run of two or more underscores to a single one
(`re.sub(r"_{2,}", "_", content)`); `prevU` records whether the
previous character was an underscore. -/
def collapseUAux : Bool → List Char → List Char
  | _, [] => []
  | prevU, c :: cs =>
    if c == '_' then
      if prevU then collapseUAux true cs else '_' :: collapseUAux true cs
    else c :: collapseUAux false cs

def collapseU (cs : List Char) : List Char := collapseUAux false cs

/-- Letter class `[A-Da-d]` of the option-label regex. -/
def isOptLetter (c : Char) : Bool :=
  ('A' ≤ c && c ≤ 'D') || ('a' ≤ c && c ≤ 'd')

/-- Remainder after the option-label pattern `^[A-Da-d][.)/]?,?\s+`,
when it matches.  The greedy choices are forced: the punctuation,
comma and whitespace classes are pairwise disjoint, so backtracking
never finds a match the greedy scan misses. -/
def labelRest (cs : List Char) : Option (List Char) :=
  match cs with
  | [] => none
  | c :: rest =>
    if isOptLetter c then
      let r1 := dropIf (fun x => x == '.' || x == ')' || x == '/') rest
      let r2 := dropIf (fun x => x == ',') r1
      let ws := r2.takeWhile pyIsSpace
      if ws.isEmpty then none else some (r2.drop ws.length)
    else none

/-- Model of `re.sub(r"^[A-Da-d][.)/]?,?\s+", "", option_text)`. -/
def stripLabel (cs : List Char) : List Char := (labelRest cs).getD cs

/-- String-level option-label stripping, as applied to one option text. -/
def stripOptionLabel (s : String) : String := ⟨stripLabel s.data⟩

/-- Full option-line treatment: `line[1:].strip()` then label stripping. -/
def optionTextOf (l : List Char) : List Char := stripLabel (pyStrip (l.drop 1))

/-- Python `line.replace(">", "").strip().upper()`. -/
def answerLetterOf (l : List Char) : List Char :=
  pyUpper (pyStrip (l.filter (· ≠ '>')))

/-- Block lines: `[line.strip() for line in block.strip().split("\n") if line.strip()]`. -/
def linesOf (block : List Char) : List (List Char) :=
  ((splitNL (pyStrip block)).map pyStrip).filter (fun l => !l.isEmpty)

/-! ## `src/question.py` : `parse_llm_output` -/

namespace QPy

/-- Question dictionary produced by `src/question.py:166-173`. -/
structure Question where
  content : String
  options : List String
  correct : Int
  type : String
deriving DecidableEq

/-- Model of `correct_map.get(answer_letter, -1)` for the stripped upper-cased
answer token. -/
def letterIdxInt (l : List Char) : Int :=
  if l = ['A'] then 0
  else if l = ['B'] then 1
  else if l = ['C'] then 2
  else if l = ['D'] then 3
  else -1

/-- Loop over `lines[1:]`: break at the first `>` line, else collect up
to four `-` option lines. -/
def scanLines : List (List Char) → List (List Char) →
    List (List Char) × Option (List Char)
  | [], opts => (opts, none)
  | l :: ls, opts =>
    if startsWithB l ['>'] then (opts, some l)
    else if startsWithB l ['-'] && opts.length < 4 then
      scanLines ls (opts ++ [optionTextOf l])
    else scanLines ls opts

/-- Per-block extraction.  `Except Unit` models the `AttributeError`
raised by `answer_line.replace` when the only `>` line of the block is
its first line (so the loop over `lines[1:]` never sets `answer_line`). -/
def parseBlock (block : List Char) : Except Unit (Option Question) :=
  let lines := linesOf block
  match lines with
  | [] => .ok none
  | l0 :: rest =>
    if !(lines.any (fun l => startsWithB l ['-'])) ||
       !(lines.any (fun l => startsWithB l ['>'])) then .ok none
    else
      let content := collapseU (stripLeadingNumber (pyStrip l0))
      let scanned := scanLines rest []
      match scanned.2 with
      | none => .error ()
      | some aline =>
        let ci := letterIdxInt (answerLetterOf aline)
        if ci == -1 then .ok none
        else .ok (some ⟨⟨content⟩, scanned.1.map (⟨·⟩), ci, "General"⟩)

/-- Fold the blocks, propagating a crash. -/
def goBlocks : List (List Char) → Except Unit (List Question)
  | [] => .ok []
  | b :: bs =>
    match parseBlock b with
    | .error e => .error e
    | .ok none => goBlocks bs
    | .ok (some q) =>
      match goBlocks bs with
      | .error e => .error e
      | .ok qs => .ok (q :: qs)

/-- Model of `parse_llm_output` of `src/question.py:70-175`: normalize headings
of depth 1-4, split on the canonical marker, extract per block. -/
def parse_llm_output (output : String) : Except Unit (List Question) :=
  goBlocks (splitHashes (pyStrip (pyNormalizeHeadings 1 output).data))

end QPy

/-! ## `src/demo/functions/parser.py` : quiz part -/

namespace Demo

/-- Model of `Question` dataclass of `src/demo/functions/parser.py:272-281`. -/
structure Question where
  id : Nat
  content : String
  options : List String
  correct : Nat
  explanation : String
  type : String
deriving DecidableEq

/-- Model of `ParsedQuizData` dataclass. -/
structure ParsedQuizData where
  questions : List Question
deriving DecidableEq

/-- Model of `correct_map` lookup (`{"A": 0, "B": 1, "C": 2, "D": 3}.get`). -/
def letterIdx (l : List Char) : Option Nat :=
  if l = ['A'] then some 0
  else if l = ['B'] then some 1
  else if l = ['C'] then some 2
  else if l = ['D'] then some 3
  else none

/-- Answer-line regex `^>\s*[A-Da-d]\s*$`. -/
def answerRegex (l : List Char) : Bool :=
  match l with
  | '>' :: rest =>
    match rest.dropWhile pyIsSpace with
    | c :: rest2 => isOptLetter c && (rest2.dropWhile pyIsSpace).isEmpty
    | [] => false
  | _ => false

/-- Validator condition on one line for `has_answer`
(`line.startswith(">") and re.match(r"^>\s*[A-Da-d]\s*$", line)`). -/
def hasAnswerLine (l : List Char) : Bool :=
  startsWithB l ['>'] && answerRegex l

/-- Model of `answer_check in ["A", "B", "C", "D"]`. -/
def isAnswerToken (cs : List Char) : Bool :=
  cs = ['A'] || cs = ['B'] || cs = ['C'] || cs = ['D']

/-- Loop over `enumerate(lines[1:], start=1)` collecting options and the
first valid answer line together with its index. -/
def scanLines : List (List Char) → Nat → List (List Char) →
    Option (List Char × Nat) → List (List Char) × Option (List Char × Nat)
  | [], _, opts, ans => (opts, ans)
  | l :: ls, idx, opts, ans =>
    if startsWithB l ['>'] && ans.isNone then
      if isAnswerToken (answerLetterOf l) then
        scanLines ls (idx + 1) opts (some (l, idx))
      else scanLines ls (idx + 1) opts ans
    else if !(startsWithB l ['>']) && startsWithB l ['-'] && opts.length < 4 then
      scanLines ls (idx + 1) (opts ++ [optionTextOf l]) ans
    else scanLines ls (idx + 1) opts ans

/-- Match of `r">\s*explanation:\s*(.+)"` (IGNORECASE) anchored at the
head of `cs`; returns `group(1).strip()`.  When everything after the
colon is whitespace, the greedy `\s*` backtracks one character so that
`(.+)` matches, and the stripped group is empty. -/
def explMatchAt (cs : List Char) : Option (List Char) :=
  match cs with
  | '>' :: rest =>
    let r1 := rest.dropWhile pyIsSpace
    if startsWithB (pyLower r1) "explanation:".data then
      let r2 := r1.drop 12
      let r3 := r2.dropWhile pyIsSpace
      if r3.isEmpty then (if r2.isEmpty then none else some [])
      else some (r3.reverse.dropWhile pyIsSpace).reverse
    else none
  | _ => none

/-- Model of `re.search`: leftmost position at which the pattern matches. -/
def explSearch : List Char → Option (List Char)
  | [] => none
  | c :: cs =>
    match explMatchAt (c :: cs) with
    | some g => some g
    | none => explSearch cs

/-- Scan `lines[answer_line_idx + 1:]` for the first line that starts
with `>` and contains `explanation:`; run the regex on it and stop. -/
def findExplanation : List (List Char) → List Char
  | [] => []
  | l :: ls =>
    if startsWithB l ['>'] && containsSub "explanation:".data (pyLower l) then
      match explSearch l with
      | some g => g
      | none => []
    else findExplanation ls

/-- Per-block extraction of `src/demo/functions/parser.py:331-417`. -/
def parseBlock (block : List Char) (qid : Nat) : Option Question :=
  let lines := linesOf block
  match lines with
  | [] => none
  | l0 :: rest =>
    if !(lines.any (fun l => startsWithB l ['-'])) ||
       !(lines.any hasAnswerLine) then none
    else
      let content := collapseU (stripLeadingNumber (pyStrip l0))
      let scanned := scanLines rest 1 [] none
      match scanned.2 with
      | none => none
      | some alineIdx =>
        match letterIdx (answerLetterOf alineIdx.1) with
        | none => none
        | some ci =>
          let expl := findExplanation (lines.drop (alineIdx.2 + 1))
          let explanation :=
            if expl.isEmpty then "No explanation provided.".data else expl
          some ⟨qid, ⟨content⟩, scanned.1.map (⟨·⟩), ci, ⟨explanation⟩, "General"⟩

/-- Fold over blocks; `question_id` advances only when a question is kept. -/
def goBlocks : List (List Char) → Nat → List Question
  | [], _ => []
  | b :: bs, qid =>
    match parseBlock b qid with
    | some q => q :: goBlocks bs (qid + 1)
    | none => goBlocks bs qid

/-- Model of `parse_llm_output` of `src/demo/functions/parser.py:307-419`:
normalize headings of depth 2-4, split on the canonical marker,
extract per block. -/
def parse_llm_output (output : String) : ParsedQuizData :=
  ⟨goBlocks (splitHashes (pyStrip (pyNormalizeHeadings 2 output).data)) 1⟩

end Demo

/-! ## `src/demo/functions/parser.py` : `fix_broken_quotes`

The line pattern is `r"^(\s*-?\s*[\w\-_]+:\s*)(.+)$"`.  The scan is
deterministic except for the optional dash: when consuming `-` leads to
failure the engine retries with the dash as the first key character
(`-` belongs to the key class).  When everything after the colon is
whitespace the real regex still matches — with a whitespace-only value
that `strip()` empties, upon which the line is kept verbatim; that
corner is modelled as no-match, which keeps the line verbatim too. -/

/-- Key class `[\w\-_]` (ASCII word characters, dash, underscore). -/
def isKeyChar (c : Char) : Bool := c.isAlphanum || c == '_' || c == '-'

/-- Parse `[\w\-_]+:` and return `(key, rest-after-colon)`. -/
def keyColon (cs : List Char) : Option (List Char × List Char) :=
  let key := cs.takeWhile isKeyChar
  match cs.dropWhile isKeyChar with
  | ':' :: rest => if key.isEmpty then none else some (key, rest)
  | _ => none

/-- One attempt at `[\w\-_]+:\s*` after the already-scanned leading
whitespace `ws1` and optional dash; returns `(group1, group2)` of the
line pattern on success.  `group2` is nonempty with a non-space head
because the `\s*` before it is greedy. -/
def kvAttempt (ws1 dash r : List Char) : Option (List Char × List Char) :=
  let ws2 := r.takeWhile pyIsSpace
  let r2 := r.dropWhile pyIsSpace
  match keyColon r2 with
  | some (key, r3) =>
    let ws3 := r3.takeWhile pyIsSpace
    let v := r3.dropWhile pyIsSpace
    if v.isEmpty then none
    else some (ws1 ++ dash ++ ws2 ++ key ++ [':'] ++ ws3, v)
  | none => none

/-- Match of the line pattern: `(group1, group2)` on success. -/
def kvSplit (cs : List Char) : Option (List Char × List Char) :=
  let ws1 := cs.takeWhile pyIsSpace
  match cs.dropWhile pyIsSpace with
  | '-' :: r1 =>
    match kvAttempt ws1 ['-'] r1 with
    | some res => some res
    | none => kvAttempt ws1 [] ('-' :: r1)
  | r1 => kvAttempt ws1 [] r1

/-- Model of `value.replace('"', '\\"')`. -/
def escapeQuotes (cs : List Char) : List Char :=
  cs.flatMap (fun c => if c == '"' then ['\\', '"'] else [c])

/-- Treatment of one line of `fix_broken_quotes`
(`src/demo/functions/parser.py:36-54`). -/
def fixLine (cs : List Char) : List Char :=
  match kvSplit cs with
  | none => cs
  | some (pre, v0) =>
    let value := pyStrip v0
    if startsWithB value ['{'] || startsWithB value ['['] then cs
    else if value.contains '"' then
      if !(startsWithB value ['"'] && value.getLastD ' ' == '"') then
        pre ++ '"' :: escapeQuotes value ++ ['"']
      else cs
    else cs

/-- Model of `fix_broken_quotes` of `src/demo/functions/parser.py:12-56`. -/
def fix_broken_quotes (yamlString : String) : String :=
  ⟨joinNL ((splitNL yamlString.data).map fixLine)⟩

/-! ## Knowledge-graph extraction

Values returned by the external YAML loader are modelled by `Yaml`;
the loader itself (`yaml.safe_load`) is an opaque parameter of type
`String → Except String Yaml`, a `.error` result standing for a raised
`yaml.YAMLError`. -/

inductive Yaml where
  | str (s : String)
  | int (n : Int)
  | bool (b : Bool)
  | null
  | list (xs : List Yaml)
  | dict (kvs : List (String × Yaml))

/-- Python truthiness of a YAML value. -/
def truthy : Yaml → Bool
  | .str s => !s.isEmpty
  | .int n => n ≠ 0
  | .bool b => b
  | .null => false
  | .list xs => !xs.isEmpty
  | .dict kvs => !kvs.isEmpty

/-- Python `str()` of a YAML value.  Scalars are exact; the `repr` of
containers is abbreviated (no claim below stringifies a container). -/
def pyStr : Yaml → String
  | .str s => s
  | .int n => toString n
  | .bool b => if b then "True" else "False"
  | .null => "None"
  | .list _ => "[...]"
  | .dict _ => "{...}"

/-- Model of `KnowledgeGraphMeta` dataclass with its defaults. -/
structure KnowledgeGraphMeta where
  title : String := ""
  type : String := ""
  topic : List String := []
  keywords : List String := []
  tone : List String := []
  author : String := ""
  date : String := ""
deriving DecidableEq

/-- Model of `KnowledgeGraphContext` dataclass with its defaults. -/
structure KnowledgeGraphContext where
  summary : String := ""
  main_points : List String := []
deriving DecidableEq

/-- Model of `KnowledgeGraphEntity` dataclass. -/
structure KnowledgeGraphEntity where
  name : String
  type : String
  attributes : List (String × Yaml)

/-- Model of `KnowledgeGraphRelationship` dataclass. -/
structure KnowledgeGraphRelationship where
  source : String
  action : String
  target : String
  context : Option String
deriving DecidableEq

/-- Model of `KnowledgeGraph` dataclass with its defaults. -/
structure KnowledgeGraph where
  meta : KnowledgeGraphMeta := ⟨"", "", [], [], [], "", ""⟩
  context : KnowledgeGraphContext := ⟨"", []⟩
  entities : List KnowledgeGraphEntity := []
  relationships : List KnowledgeGraphRelationship := []

/-- The `KnowledgeGraph()` constructed with every default
(`kg = KnowledgeGraph()` at `src/demo/functions/parser.py:169`). -/
def KnowledgeGraph.empty : KnowledgeGraph :=
  ⟨⟨"", "", [], [], [], "", ""⟩, ⟨"", []⟩, [], []⟩

/-- Model of `_ensure_list` of `src/demo/functions/parser.py:260-266`. -/
def _ensure_list (value : Yaml) : List String :=
  match value with
  | .list xs => xs.map pyStr
  | v => if truthy v then [pyStr v] else []

/-- Model of `d.get(k, default)` on a parsed mapping. -/
def yGet (kvs : List (String × Yaml)) (k : String) (dflt : Yaml) : Yaml :=
  (kvs.lookup k).getD dflt

/-- Model of `str(d.get(k, ""))`. -/
def yGetStr (kvs : List (String × Yaml)) (k : String) : String :=
  match kvs.lookup k with
  | some v => pyStr v
  | none => ""

/-- Entity record treatment (`src/demo/functions/parser.py:221-238`). -/
def entityOf : Yaml → Option KnowledgeGraphEntity
  | .dict ed =>
    let name := yGetStr ed "name"
    let etype :=
      match ed.lookup "type" with
      | some v => pyStr v
      | none => "thing"
    if name.isEmpty then none
    else some ⟨name, etype, ed.filter (fun kv => kv.1 ≠ "name" && kv.1 ≠ "type")⟩
  | _ => none

/-- Relationship record treatment (`src/demo/functions/parser.py:241-255`). -/
def relationshipOf : Yaml → Option KnowledgeGraphRelationship
  | .list (a :: b :: c :: rest) =>
    some ⟨pyStr a, pyStr b, pyStr c,
      match rest with
      | d :: _ => some (pyStr d)
      | [] => none⟩
  | _ => none

/-- Field-by-field construction from a successfully parsed top-level
mapping (`src/demo/functions/parser.py:199-257`). -/
def buildKG (kvs : List (String × Yaml)) : KnowledgeGraph :=
  let meta :=
    match kvs.lookup "meta" with
    | some (.dict m) =>
      ⟨yGetStr m "title", yGetStr m "type",
       _ensure_list (yGet m "topic" (.list [])),
       _ensure_list (yGet m "keywords" (.list [])),
       _ensure_list (yGet m "tone" (.list [])),
       yGetStr m "author", yGetStr m "date"⟩
    | _ => (⟨"", "", [], [], [], "", ""⟩ : KnowledgeGraphMeta)
  let context :=
    match kvs.lookup "context" with
    | some (.dict c) =>
      ⟨yGetStr c "summary", _ensure_list (yGet c "main_points" (.list []))⟩
    | _ => (⟨"", []⟩ : KnowledgeGraphContext)
  let entities :=
    match kvs.lookup "entities" with
    | some (.list es) => es.filterMap entityOf
    | _ => []
  let relationships :=
    match kvs.lookup "relationships" with
    | some (.list rs) => rs.filterMap relationshipOf
    | _ => []
  ⟨meta, context, entities, relationships⟩

/-- Split `cs` at the first occurrence of `pat`, returning the parts
before and after it. -/
def splitAtSub (pat : List Char) : List Char → Option (List Char × List Char)
  | [] => if pat.isEmpty then some ([], []) else none
  | c :: rest =>
    if pat.isPrefixOf (c :: rest) then some ([], (c :: rest).drop pat.length)
    else (splitAtSub pat rest).map (fun pr => (c :: pr.1, pr.2))

/-- Match of the fence pattern `` r"```(?:yaml)?\s*\n(.*?)\n```" ``
(DOTALL) anchored at the head of `cs`; returns the captured group.
The greedy `\s*` before `\n` consumes up to the last newline of the
whitespace run; the lazy group stops at the first closing fence. -/
def fenceAt (cs : List Char) : Option (List Char) :=
  if ('`' :: '`' :: '`' :: []).isPrefixOf cs then
    let r0 := cs.drop 3
    let r1 := if "yaml".data.isPrefixOf r0 then r0.drop 4 else r0
    let ws := r1.takeWhile pyIsSpace
    let tailNonNl := (ws.reverse.takeWhile (· ≠ '\n')).length
    if tailNonNl = ws.length then none
    else
      match splitAtSub ('\n' :: '`' :: '`' :: '`' :: []) (r1.drop (ws.length - tailNonNl)) with
      | some (cap, _) => some cap
      | none => none
  else none

/-- Model of `re.search` for the fence pattern: leftmost start that matches. -/
def findFence : List Char → Option (List Char)
  | [] => none
  | c :: rest =>
    match fenceAt (c :: rest) with
    | some cap => some cap
    | none => findFence rest

/-- Extraction of the YAML blob (`src/demo/functions/parser.py:172-177`):
the fenced sub-blob when a fence is present, otherwise the whole output. -/
def yamlContentOf (output : String) : String :=
  match findFence output.data with
  | some cap => ⟨cap⟩
  | none => output

/-- Model of `parse_knowledge_graph` of `src/demo/functions/parser.py:144-257`,
parameterized by the external YAML loader.  A non-mapping parse result
and a double parse failure both return the all-default graph. -/
def parse_knowledge_graph (safeLoad : String → Except String Yaml)
    (output : String) : KnowledgeGraph :=
  let yc := yamlContentOf output
  match safeLoad yc with
  | .ok (.dict kvs) => buildKG kvs
  | .ok _ => KnowledgeGraph.empty
  | .error _ =>
    match safeLoad (fix_broken_quotes yc) with
    | .ok (.dict kvs) => buildKG kvs
    | .ok _ => KnowledgeGraph.empty
    | .error _ => KnowledgeGraph.empty

/-! ## `src/eval.py` : question flattening and best-match alignment

Scores live in `ℚ`.  The per-pair scorers (NLTK `sentence_bleu` with
smoothing, `rouge_scorer` ROUGE-L f-measure, the bi-encoder cosine and
the BLEURT regression head) are opaque external capabilities and enter
as parameters `String → String → ℚ`. -/

/-- The `correct` field of a question dictionary: an int or a letter. -/
inductive CorrectVal where
  | idx (i : Int)
  | letter (s : String)
deriving DecidableEq

/-- Question dictionary as consumed by `src/eval.py` (the `content` /
`question` and missing-key fallbacks are collapsed into plain fields). -/
structure EvalQuestion where
  content : String
  options : List String
  correct : Option CorrectVal
deriving DecidableEq

/-- Resolution of `correct` to an index (`src/eval.py:121-127`):
`-1` when a string is not a single character. -/
def cvIndex : CorrectVal → Int
  | .idx i => i
  | .letter s =>
    match s.data with
    | [c] => (c.toUpper.toNat : Int) - 65
    | _ => -1

/-- Model of `re.sub(r"^\[?[A-D][\.\)\]]?\s+", "", raw_opt)`: remainder after the
answer-label pattern, when it matches (deterministic for the same
disjointness reasons as `labelRest`). -/
def ansLabelRest (cs : List Char) : Option (List Char) :=
  let body := dropIf (· == '[') cs
  match body with
  | c :: r =>
    if 'A' ≤ c ∧ c ≤ 'D' then
      let r1 := dropIf (fun x => x == '.' || x == ')' || x == ']') r
      let ws := r1.takeWhile pyIsSpace
      if ws.isEmpty then none else some (r1.drop ws.length)
    else none
  | [] => none

/-- Model of `re.sub(r"^\[?[A-D][\.\)\]]?\s+", "", raw_opt).strip()`. -/
def cleanAnswerText (s : String) : String :=
  ⟨pyStrip ((ansLabelRest s.data).getD s.data)⟩

/-- Model of `content.replace("_", correct_text, 1)`. -/
def replaceFirstU : List Char → List Char → List Char
  | [], _ => []
  | '_' :: rest, t => t ++ rest
  | c :: rest, t => c :: replaceFirstU rest t

/-- Model of `format_question_text` of `src/eval.py:99-146`: flatten a question
and its correct answer into one statement. -/
def format_question_text (q : EvalQuestion) : String :=
  match q.correct with
  | none => q.content
  | some cv =>
    if q.options.isEmpty then q.content
    else
      let idx := cvIndex cv
      if 0 ≤ idx ∧ idx < q.options.length then
        let ct := cleanAnswerText (q.options.getD idx.toNat "")
        if containsSub ['_'] q.content.data then
          ⟨replaceFirstU q.content.data ct.data⟩
        else q.content ++ " " ++ ct
      else q.content

/-- Model of `np.mean` over a nonempty list (callers only apply it to nonempty
score lists; NumPy would produce NaN on an empty one). -/
def qMean (xs : List ℚ) : ℚ := xs.sum / xs.length

/-- Running state of the inner loop of `compute_lexical_recall`
(`max_b`, `max_r`, `best_pred_idx` initialised to `0, 0, -1`), updated
when the combined score strictly exceeds the running combined score. -/
def lexAux : Nat → ℚ × ℚ × Int → List (ℚ × ℚ) → ℚ × ℚ × Int
  | _, st, [] => st
  | j, st, (b, r) :: rest =>
    if (b + r) / 2 > (st.1 + st.2.1) / 2 then lexAux (j + 1) (b, r, (j : Int)) rest
    else lexAux (j + 1) st rest

/-- Best lexical match of one reference against all candidates
(`src/eval.py:227-247`). -/
def lexicalBest (scores : List (ℚ × ℚ)) : ℚ × ℚ × Int :=
  lexAux 0 (0, 0, -1) scores

/-- Model of `compute_lexical_recall` of `src/eval.py:206-252`, with the
tokenizer folded into the opaque pair scorers. -/
def compute_lexical_recall (bleu rouge : String → String → ℚ)
    (gtTexts predTexts : List String) : List (ℚ × ℚ × Int) × ℚ × ℚ :=
  let detailed := gtTexts.map
    (fun g => lexicalBest (predTexts.map (fun p => (bleu g p, rouge g p))))
  (detailed, qMean (detailed.map (·.1)), qMean (detailed.map (·.2.1)))

/-- Row reduction of `torch.max(..., dim=1)` / `np.max`+`np.argmax`:
value and first index of the row maximum.  (Both libraries return the
first maximal index; the empty case cannot be reached from
`evaluate_sample`, which guards non-emptiness, and would raise in
Python.) -/
def rowMaxAux : Nat → ℚ × Nat → List ℚ → ℚ × Nat
  | _, st, [] => st
  | j, st, x :: xs =>
    if x > st.1 then rowMaxAux (j + 1) (x, j) xs else rowMaxAux (j + 1) st xs

def rowMaxFirst : List ℚ → ℚ × Nat
  | [] => (0, 0)
  | x :: xs => rowMaxAux 1 (x, 0) xs

/-- Model of `compute_bi_encoder_score` of `src/eval.py:258-286`: row-wise
maximum of the cosine-similarity matrix. -/
def compute_bi_encoder_score (cos : String → String → ℚ)
    (gtTexts predTexts : List String) : List (ℚ × Nat) × ℚ :=
  let detailed := gtTexts.map (fun g => rowMaxFirst (predTexts.map (cos g)))
  (detailed, qMean (detailed.map (·.1)))

/-- Model of `compute_bleurt_score` of `src/eval.py:292-348`: guard for empty
inputs, otherwise row-wise maximum of the BLEURT score matrix. -/
def compute_bleurt_score (bl : String → String → ℚ)
    (gtTexts predTexts : List String) : List (ℚ × Int) × ℚ :=
  if gtTexts.length = 0 ∨ predTexts.length = 0 then
    (gtTexts.map (fun _ => ((0 : ℚ), (-1 : Int))), 0)
  else
    let detailed := gtTexts.map (fun g =>
      let r := rowMaxFirst (predTexts.map (bl g))
      (r.1, (r.2 : Int)))
    (detailed, qMean (detailed.map (·.1)))

/-- One entry of `question_scores` (`src/eval.py:397-413`). -/
structure QuestionScore where
  gtQuestion : EvalQuestion
  gtText : String
  matchedPredIdx : Int
  matchedPredQuestion : Option EvalQuestion
  matchedPredText : Option String
  bleu4 : ℚ
  rougeL : ℚ
  cosineSim : ℚ
  bleurt : ℚ
deriving DecidableEq

/-- Result of `evaluate_sample`: either the early error-marked record
(`{"id": ..., "n_gt": ..., "n_pred": ..., "error": msg}`) or the full
record with its per-reference score list. -/
inductive EvalResult where
  | err (id nGt nPred : Nat) (msg : String)
  | ok (id nGt nPred : Nat) (questionScores : List QuestionScore)
deriving DecidableEq

/-- Whether the returned record carries the `"error"` key (downstream
code filters on `"error" in r`). -/
def hasErrorMarker : EvalResult → Bool
  | .err _ _ _ _ => true
  | .ok _ _ _ _ => false

/-- Per-reference best-match pairs of a result (`question_scores`,
absent — hence empty — on an error-marked record). -/
def pairsOf : EvalResult → List QuestionScore
  | .err _ _ _ _ => []
  | .ok _ _ _ qs => qs

/-- Zip of the per-metric detail lists into `question_scores`
(`for i, gt_q in enumerate(gt_questions)`; all lists have length
`n_gt`, and `best_pred_idx` is within `pred` bounds when nonnegative). -/
def buildQuestionScores (preds : List EvalQuestion) (predTexts : List String) :
    List (EvalQuestion × String) → List (ℚ × ℚ × Int) → List (ℚ × Nat) →
    List (ℚ × Int) → List QuestionScore
  | (gq, gt) :: gs, lx :: lxs, bi :: bis, blr :: blrs =>
    let bestIdx := blr.2
    ⟨gq, gt, bestIdx,
     if 0 ≤ bestIdx then preds.get? bestIdx.toNat else none,
     if 0 ≤ bestIdx then predTexts.get? bestIdx.toNat else none,
     lx.1, lx.2.1, bi.1, blr.1⟩ ::
      buildQuestionScores preds predTexts gs lxs bis blrs
  | _, _, _, _ => []

/-- Model of `evaluate_sample` of `src/eval.py:354-420`. -/
def evaluate_sample (bleu rouge cos bl : String → String → ℚ)
    (sampleId : Nat) (gtQuestions predQuestions : List EvalQuestion) : EvalResult :=
  if gtQuestions.isEmpty || predQuestions.isEmpty then
    .err sampleId gtQuestions.length predQuestions.length "Missing questions"
  else
    let gtTexts := gtQuestions.map format_question_text
    let predTexts := predQuestions.map format_question_text
    let lexical := compute_lexical_recall bleu rouge gtTexts predTexts
    let bi := compute_bi_encoder_score cos gtTexts predTexts
    let blr := compute_bleurt_score bl gtTexts predTexts
    .ok sampleId gtQuestions.length predQuestions.length
      (buildQuestionScores predQuestions predTexts
        (gtQuestions.zip gtTexts) lexical.1 bi.1 blr.1)

/-! ## A single-line YAML mapping with a double-quoted scalar

Modelled from the external YAML library (PyYAML): used only to state
that the repaired line of claim C9 re-parses to the intended value.
Inside a double-quoted scalar, `\"` denotes a quote and `\\` a
backslash (no other escape appears in the inputs considered). -/

def yamlDQBody : List Char → Option (List Char × List Char)
  | [] => none
  | '"' :: rest => some ([], rest)
  | '\\' :: c :: rest =>
    if c = '"' ∨ c = '\\' then
      (yamlDQBody rest).map (fun br => (c :: br.1, br.2))
    else none
  | c :: rest => (yamlDQBody rest).map (fun br => (c :: br.1, br.2))

/-- Parse `key: "..."` (leading/trailing whitespace allowed) into the
key and the unescaped scalar value. -/
def yamlParseSimpleLine (s : String) : Option (String × String) :=
  let cs := s.data.dropWhile pyIsSpace
  let key := cs.takeWhile isKeyChar
  match cs.dropWhile isKeyChar with
  | ':' :: r1 =>
    match r1.dropWhile pyIsSpace with
    | '"' :: body =>
      match yamlDQBody body with
      | some (content, rest) =>
        if (rest.dropWhile pyIsSpace).isEmpty ∧ !key.isEmpty then
          some (⟨key⟩, ⟨content⟩)
        else none
      | none => none
    | _ => none
  | _ => none

/-- Concrete stand-in for the external YAML loader's verdict on the
input `"meta:\n  topic: ''"`: a mapping whose `meta` mapping carries an
empty-string `topic`. -/
def kgOracle0 : String → Except String Yaml :=
  fun _ => .ok (.dict [("meta", .dict [("topic", .str "")])])

/-- Decidable equality for `Except`, needed to evaluate concrete runs
of the `src/question.py` extractor. -/
instance {e a : Type} [DecidableEq e] [DecidableEq a] :
    DecidableEq (Except e a) := fun x y =>
  match x, y with
  | .ok u, .ok v =>
    if h : u = v then isTrue (by rw [h])
    else isFalse (by intro hh; cases hh; exact h rfl)
  | .error u, .error v =>
    if h : u = v then isTrue (by rw [h])
    else isFalse (by intro hh; cases hh; exact h rfl)
  | .ok _, .error _ => isFalse (by intro hh; cases hh)
  | .error _, .ok _ => isFalse (by intro hh; cases hh)

/-! # Theorems

Generic facts about the scanning primitives first, then the claim
theorems C1-C10 with their witnesses and counterexamples. -/

/-! ## Span lemmas -/

theorem takeWhile_append_sat {p : Char → Bool} {xs : List Char}
    (h : ∀ c ∈ xs, p c = true) (ys : List Char) :
    (xs ++ ys).takeWhile p = xs ++ ys.takeWhile p := by
  induction xs with
  | nil => rfl
  | cons a l ih =>
    rw [List.cons_append, List.takeWhile_cons_of_pos (h a (List.mem_cons_self a l)),
      ih (fun c hc => h c (List.mem_cons_of_mem a hc)), List.cons_append]

theorem dropWhile_append_sat {p : Char → Bool} {xs : List Char}
    (h : ∀ c ∈ xs, p c = true) (ys : List Char) :
    (xs ++ ys).dropWhile p = ys.dropWhile p := by
  induction xs with
  | nil => rfl
  | cons a l ih =>
    rw [List.cons_append, List.dropWhile_cons_of_pos (h a (List.mem_cons_self a l))]
    exact ih fun c hc => h c (List.mem_cons_of_mem a hc)

theorem takeWhile_cons_neg {p : Char → Bool} {c : Char} (h : p c = false)
    (l : List Char) : (c :: l).takeWhile p = [] := by
  simp [List.takeWhile_cons, h]

theorem dropWhile_cons_neg {p : Char → Bool} {c : Char} (h : p c = false)
    (l : List Char) : (c :: l).dropWhile p = c :: l := by
  simp [List.dropWhile_cons, h]

theorem dropWhile_head_neg {p : Char → Bool} (l : List Char) {c : Char}
    {cs : List Char} (h : l.dropWhile p = c :: cs) : p c = false := by
  induction l with
  | nil => simp at h
  | cons a t ih =>
    by_cases ha : p a
    · exact ih (by simpa [List.dropWhile_cons, ha] using h)
    · simp only [List.dropWhile_cons, ha, if_false] at h
      cases h
      simpa using ha

theorem mem_takeWhile_sat {p : Char → Bool} {l : List Char} :
    ∀ c ∈ l.takeWhile p, p c = true := fun _ hc => List.mem_takeWhile_imp hc

theorem mem_pyStrip {cs : List Char} {a : Char} (h : a ∈ pyStrip cs) : a ∈ cs := by
  have h1 := (List.dropWhile_sublist (l := (cs.dropWhile pyIsSpace).reverse)
    (p := pyIsSpace)).subset (by simpa [pyStrip] using h)
  have h2 := (List.dropWhile_sublist (l := cs) (p := pyIsSpace)).subset
    (by simpa using h1)
  exact h2

/-! ## Character-class facts -/

theorem space_not_keyChar {c : Char} (h : pyIsSpace c = true) :
    isKeyChar c = false := by
  have hm : c ∈ pySpaceChars := by simpa [pyIsSpace] using h
  simp only [pySpaceChars, List.mem_cons, List.not_mem_nil, or_false] at hm
  rcases hm with h | h | h | h | h | h <;> subst h <;> decide

theorem keyChar_not_space {c : Char} (h : isKeyChar c = true) :
    pyIsSpace c = false := by
  by_cases hs : pyIsSpace c
  · rw [space_not_keyChar hs] at h; cases h
  · simpa using hs

/-! ## Structure of the `fix_broken_quotes` line match -/

theorem keyColon_sound {q key rest : List Char}
    (h : keyColon q = some (key, rest)) :
    key = q.takeWhile isKeyChar ∧ q.dropWhile isKeyChar = ':' :: rest ∧
      key ≠ [] := by
  simp only [keyColon] at h
  split at h
  case h_1 r heq =>
    by_cases hemp : (List.takeWhile isKeyChar q).isEmpty
    · rw [if_pos hemp] at h; cases h
    · rw [if_neg hemp] at h
      cases h
      exact ⟨rfl, heq, fun hnil => hemp (by simp [hnil])⟩
  case h_2 => cases h

theorem kvAttempt_sound {ws1 dash r p v : List Char}
    (h : kvAttempt ws1 dash r = some (p, v)) :
    ∃ ws2 key ws3,
      r = ws2 ++ (key ++ (':' :: (ws3 ++ v))) ∧
      (∀ c ∈ ws2, pyIsSpace c = true) ∧
      (∀ c ∈ key, isKeyChar c = true) ∧ key ≠ [] ∧
      (∀ c ∈ ws3, pyIsSpace c = true) ∧
      (∃ ch v', v = ch :: v' ∧ pyIsSpace ch = false) ∧
      p = ws1 ++ dash ++ ws2 ++ key ++ [':'] ++ ws3 := by
  simp only [kvAttempt] at h
  split at h
  case h_1 key r3 heq =>
    split at h
    · cases h
    case isFalse hv =>
      cases h
      obtain ⟨hkey, hdrop, hk0⟩ := keyColon_sound heq
      refine ⟨r.takeWhile pyIsSpace, key, r3.takeWhile pyIsSpace, ?_, ?_, ?_, hk0, ?_, ?_, rfl⟩
      · conv_lhs => rw [← List.takeWhile_append_dropWhile (p := pyIsSpace) (l := r)]
        congr 1
        conv_lhs => rw [← List.takeWhile_append_dropWhile (p := isKeyChar)
          (l := r.dropWhile pyIsSpace)]
        rw [← hkey, hdrop]
        congr 1
        congr 1
        exact (List.takeWhile_append_dropWhile (p := pyIsSpace) (l := r3)).symm
      · exact mem_takeWhile_sat
      · intro c hc; rw [hkey] at hc; exact List.mem_takeWhile_imp hc
      · exact mem_takeWhile_sat
      · rcases hv' : r3.dropWhile pyIsSpace with _ | ⟨ch, v'⟩
        · rw [hv'] at hv; simp at hv
        · exact ⟨ch, v', hv'.symm ▸ rfl, dropWhile_head_neg r3 hv'⟩
  case h_2 => cases h

theorem kvAttempt_rebuild (ws1 dash ws2 key ws3 : List Char) {w : List Char}
    (hws2 : ∀ c ∈ ws2, pyIsSpace c = true)
    (hkey : ∀ c ∈ key, isKeyChar c = true) (hk0 : key ≠ [])
    (hws3 : ∀ c ∈ ws3, pyIsSpace c = true)
    (hw : ∃ ch w', w = ch :: w' ∧ pyIsSpace ch = false) :
    kvAttempt ws1 dash (ws2 ++ (key ++ (':' :: (ws3 ++ w)))) =
      some (ws1 ++ dash ++ ws2 ++ key ++ [':'] ++ ws3, w) := by
  obtain ⟨ch, w', rfl, hch⟩ := hw
  obtain ⟨k, kt, rfl⟩ : ∃ k kt, key = k :: kt := by
    cases key with
    | nil => cases hk0 rfl
    | cons k kt => exact ⟨k, kt, rfl⟩
  have hknsp : pyIsSpace k = false := keyChar_not_space (hkey k (by simp))
  have hkk : isKeyChar k = true := hkey k (by simp)
  have hkt : ∀ c ∈ kt, isKeyChar c = true := fun c hc => hkey c (by simp [hc])
  simp only [kvAttempt, keyColon, List.cons_append,
    takeWhile_append_sat hws2, dropWhile_append_sat hws2,
    takeWhile_cons_neg hknsp, dropWhile_cons_neg hknsp,
    List.takeWhile_cons_of_pos hkk, List.dropWhile_cons_of_pos hkk,
    takeWhile_append_sat hkt, dropWhile_append_sat hkt,
    takeWhile_cons_neg (show pyIsSpace ':' = false by decide),
    dropWhile_cons_neg (show pyIsSpace ':' = false by decide),
    takeWhile_cons_neg (show isKeyChar ':' = false by decide),
    dropWhile_cons_neg (show isKeyChar ':' = false by decide),
    takeWhile_append_sat hws3, dropWhile_append_sat hws3,
    takeWhile_cons_neg hch, dropWhile_cons_neg hch,
    List.append_nil, List.isEmpty_cons, Bool.false_eq_true, if_false]

theorem kvSplit_struct {cs p v : List Char} (h : kvSplit cs = some (p, v)) :
    cs = p ++ v ∧
    ∀ w : List Char, (∃ ch w', w = ch :: w' ∧ pyIsSpace ch = false) →
      kvSplit (p ++ w) = some (p, w) := by
  have hW : ∀ c ∈ cs.takeWhile pyIsSpace, pyIsSpace c = true := mem_takeWhile_sat
  have hcs : cs.takeWhile pyIsSpace ++ cs.dropWhile pyIsSpace = cs :=
    List.takeWhile_append_dropWhile (p := pyIsSpace) (l := cs)
  have hdashns : pyIsSpace '-' = false := by decide
  simp only [kvSplit] at h
  split at h
  case h_1 r1 heqR =>
    split at h
    case h_1 res heqA =>
      obtain ⟨rp, rv⟩ := res
      injection h with h'
      injection h' with hp0 hv0
      subst hp0; subst hv0
      obtain ⟨ws2, key, ws3, hr1, hws2, hkey, hk0, hws3, hv, hp⟩ :=
        kvAttempt_sound heqA
      constructor
      · rw [← hcs, heqR, hr1, hp]; simp [List.append_assoc]
      · rintro w ⟨ch, w', rfl, hch⟩
        rw [hp]
        have hre := kvAttempt_rebuild (cs.takeWhile pyIsSpace) ['-'] ws2 key ws3
          hws2 hkey hk0 hws3 ⟨ch, w', rfl, hch⟩
        simp only [kvSplit, List.append_assoc, List.cons_append, List.nil_append,
          takeWhile_append_sat hW, dropWhile_append_sat hW,
          takeWhile_cons_neg hdashns, dropWhile_cons_neg hdashns]
        simp only [List.append_assoc, List.cons_append, List.nil_append] at hre
        simp [hre, List.append_assoc]
    case h_2 heqA =>
      obtain ⟨ws2, key, ws3, hr1, hws2, hkey, hk0, hws3, hv, hp⟩ :=
        kvAttempt_sound h
      -- the fallback consumed `'-' :: r1`; its leading whitespace is empty
      have hws2nil : ws2 = [] := by
        cases hws2e : ws2 with
        | nil => rfl
        | cons c t =>
          rw [hws2e] at hr1
          have : c = '-' := by
            have := congrArg List.head? hr1
            simpa using this.symm
          have hc := hws2 c (by rw [hws2e]; simp)
          rw [this] at hc
          rw [hc] at hdashns; cases hdashns
      subst hws2nil
      obtain ⟨k, kt, rfl⟩ : ∃ k kt, key = k :: kt := by
        cases key with
        | nil => cases hk0 rfl
        | cons k kt => exact ⟨k, kt, rfl⟩
      simp only [List.nil_append] at hr1 hp
      rw [List.cons_append] at hr1
      injection hr1 with hkdash hr1'
      subst hkdash
      -- if the key had a second character the dash attempt would have succeeded
      have hktnil : kt = [] := by
        cases hkte : kt with
        | nil => rfl
        | cons c t =>
          have hktkey : ∀ c' ∈ kt, isKeyChar c' = true :=
            fun c' hc' => hkey c' (by simp [hc'])
          have hre := kvAttempt_rebuild (cs.takeWhile pyIsSpace) ['-'] [] kt ws3
            (by simp) hktkey (by rw [hkte]; simp) hws3 hv
          rw [List.nil_append, ← hr1'] at hre
          rw [hre] at heqA; cases heqA
      subst hktnil
      simp only [List.nil_append] at hr1' hp
      constructor
      · rw [← hcs, heqR, hr1', hp]; simp [List.append_assoc]
      · rintro w ⟨ch, w', rfl, hch⟩
        rw [hp]
        have hreNone : kvAttempt (cs.takeWhile pyIsSpace) ['-']
            (':' :: (ws3 ++ ch :: w')) = none := by
          simp [kvAttempt, keyColon,
            takeWhile_cons_neg (show pyIsSpace ':' = false by decide),
            dropWhile_cons_neg (show pyIsSpace ':' = false by decide),
            takeWhile_cons_neg (show isKeyChar ':' = false by decide),
            dropWhile_cons_neg (show isKeyChar ':' = false by decide)]
        have hre := kvAttempt_rebuild (cs.takeWhile pyIsSpace) [] [] ['-'] ws3
          (by simp) (by intro c hc; simp at hc; rw [hc]; decide) (by simp) hws3
          ⟨ch, w', rfl, hch⟩
        simp only [List.nil_append, List.cons_append] at hre
        simp only [kvSplit, List.append_assoc, List.cons_append, List.nil_append,
          takeWhile_append_sat hW, dropWhile_append_sat hW,
          takeWhile_cons_neg hdashns, dropWhile_cons_neg hdashns]
        simp [hreNone, hre, List.append_assoc]
  case h_2 hne =>
    obtain ⟨ws2, key, ws3, hr1, hws2, hkey, hk0, hws3, hv, hp⟩ :=
      kvAttempt_sound h
    -- the scanned rest starts after maximal whitespace, so ws2 is empty
    have hws2nil : ws2 = [] := by
      cases hws2e : ws2 with
      | nil => rfl
      | cons c t =>
        rw [hws2e] at hr1
        have hc := hws2 c (by rw [hws2e]; simp)
        have hcneg : pyIsSpace c = false :=
          dropWhile_head_neg cs (by rw [hr1]; rfl)
        rw [hc] at hcneg; cases hcneg
    subst hws2nil
    obtain ⟨k, kt, rfl⟩ : ∃ k kt, key = k :: kt := by
      cases key with
      | nil => cases hk0 rfl
      | cons k kt => exact ⟨k, kt, rfl⟩
    simp only [List.nil_append] at hr1 hp
    have hknd : k ≠ '-' := by
      intro hkd
      subst hkd
      exact hne (kt ++ (':' :: (ws3 ++ v))) (by rw [hr1]; simp)
    have hkns : pyIsSpace k = false := keyChar_not_space (hkey k (by simp))
    constructor
    · rw [← hcs, hr1, hp]; simp [List.append_assoc]
    · rintro w ⟨ch, w', rfl, hch⟩
      rw [hp]
      have hre := kvAttempt_rebuild (cs.takeWhile pyIsSpace) [] [] (k :: kt) ws3
        (by simp) hkey hk0 hws3 ⟨ch, w', rfl, hch⟩
      simp only [List.nil_append, List.cons_append] at hre
      simp only [kvSplit, List.append_assoc, List.cons_append, List.nil_append,
        takeWhile_append_sat hW, dropWhile_append_sat hW,
        takeWhile_cons_neg hkns, dropWhile_cons_neg hkns]
      split
      case h_1 r1' heq' => exact absurd (List.cons.injEq _ _ _ _ ▸ heq').1 hknd
      case h_2 => simp [hre, List.append_assoc]

/-! ## Idempotence of `fix_broken_quotes` -/

theorem fixLine_cases (l : List Char) :
    fixLine l = l ∨ ∃ p v0, kvSplit l = some (p, v0) ∧
      fixLine l = p ++ '"' :: (escapeQuotes (pyStrip v0) ++ ['"']) := by
  cases hk : kvSplit l with
  | none => left; simp [fixLine, hk]
  | some pv =>
    obtain ⟨p, v0⟩ := pv
    by_cases h1 : (startsWithB (pyStrip v0) ['{'] ||
        startsWithB (pyStrip v0) ['[']) = true
    · left; simp only [fixLine, hk, h1, if_true]
    · by_cases h2 : (pyStrip v0).contains '"' = true
      · by_cases h3 : (!(startsWithB (pyStrip v0) ['"'] &&
            (pyStrip v0).getLastD ' ' == '"')) = true
        · right
          exact ⟨p, v0, rfl, by
            simp only [fixLine, hk, h1, h2, h3, if_true, if_false,
              Bool.false_eq_true, List.append_assoc, List.cons_append]⟩
        · left
          simp only [fixLine, hk, h1, h2, h3, if_true, Bool.false_eq_true,
            if_false]
      · left
        simp only [fixLine, hk, h1, h2, Bool.false_eq_true, if_false]

theorem startsWith_cons (c d : Char) (l : List Char) :
    startsWithB (c :: l) [d] = (d == c) := by
  simp [startsWithB, List.isPrefixOf]

theorem pyStrip_quoted (xs : List Char) :
    pyStrip ('"' :: (xs ++ ['"'])) = '"' :: (xs ++ ['"']) := by
  have hq : pyIsSpace '"' = false := by decide
  simp only [pyStrip, dropWhile_cons_neg hq]
  rw [show ('"' :: (xs ++ ['"'])).reverse = '"' :: (xs.reverse ++ ['"']) by simp]
  rw [dropWhile_cons_neg hq]
  simp

theorem fixLine_idem (l : List Char) : fixLine (fixLine l) = fixLine l := by
  rcases fixLine_cases l with he | ⟨p, v0, hk, he⟩
  · rw [he]; exact he
  · rw [he]
    have hrefire := (kvSplit_struct hk).2
      ('"' :: (escapeQuotes (pyStrip v0) ++ ['"']))
      ⟨'"', escapeQuotes (pyStrip v0) ++ ['"'], rfl, by decide⟩
    have hlast : ('"' :: (escapeQuotes (pyStrip v0) ++ ['"'])).getLast? =
        some '"' := by
      rw [show ('"' :: (escapeQuotes (pyStrip v0) ++ ['"'])) =
        ('"' :: escapeQuotes (pyStrip v0)) ++ ['"'] by simp]
      exact List.getLast?_concat _
    simp only [fixLine, hrefire, pyStrip_quoted, startsWith_cons]
    simp [hlast, List.getLastD_eq_getLast?]

theorem mem_fixLine {l : List Char} {a : Char} (h : a ∈ fixLine l) :
    a ∈ l ∨ a = '"' ∨ a = '\\' := by
  rcases fixLine_cases l with he | ⟨p, v0, hk, he⟩
  · rw [he] at h; exact Or.inl h
  · rw [he] at h
    have hl : l = p ++ v0 := (kvSplit_struct hk).1
    rcases List.mem_append.mp h with hp | hw
    · exact Or.inl (hl ▸ List.mem_append.mpr (Or.inl hp))
    · rcases List.mem_cons.mp hw with rfl | hw
      · exact Or.inr (Or.inl rfl)
      rcases List.mem_append.mp hw with hesc | hq
      · simp only [escapeQuotes] at hesc
        obtain ⟨c, hc, hfc⟩ := List.mem_flatMap.mp hesc
        by_cases hcq : (c == '"') = true
        · rw [if_pos hcq] at hfc
          simp only [List.mem_cons, List.not_mem_nil, or_false] at hfc
          rcases hfc with rfl | rfl
          · exact Or.inr (Or.inr rfl)
          · exact Or.inr (Or.inl rfl)
        · rw [if_neg hcq] at hfc
          simp only [List.mem_singleton] at hfc
          subst hfc
          exact Or.inl (hl ▸ List.mem_append.mpr (Or.inr (mem_pyStrip hc)))
      · simp only [List.mem_singleton] at hq
        exact Or.inr (Or.inl hq)

theorem fixLine_no_nl {l : List Char} (h : '\n' ∉ l) : '\n' ∉ fixLine l := by
  intro hin
  rcases mem_fixLine hin with hl | hq | hb
  · exact h hl
  · cases hq
  · cases hb

/-! ## `splitNL` / `joinNL` round trip -/

theorem splitNL_ne_nil (cs : List Char) : splitNL cs ≠ [] := by
  induction cs with
  | nil => simp [splitNL]
  | cons c rest ih =>
    by_cases hc : c = '\n'
    · simp [splitNL, hc]
    · cases h : splitNL rest with
      | nil => exact absurd h ih
      | cons l ls => simp [splitNL, hc, h]

theorem mem_splitNL_no_nl (cs : List Char) :
    ∀ l ∈ splitNL cs, '\n' ∉ l := by
  induction cs with
  | nil =>
    intro l hl
    simp only [splitNL, List.mem_singleton] at hl
    simp [hl]
  | cons c rest ih =>
    intro l hl
    by_cases hc : c = '\n'
    · rw [hc] at hl
      simp only [splitNL, if_pos rfl] at hl
      rcases List.mem_cons.mp hl with rfl | hl
      · simp
      · exact ih l hl
    · cases h : splitNL rest with
      | nil => exact absurd h (splitNL_ne_nil rest)
      | cons l0 ls =>
        simp only [splitNL, if_neg hc, h] at hl
        rcases List.mem_cons.mp hl with rfl | hl
        · intro hmem
          rcases List.mem_cons.mp hmem with heq | hmem
          · exact hc heq.symm
          · exact ih l0 (h ▸ List.mem_cons_self l0 ls) hmem
        · exact ih l (h ▸ List.mem_cons_of_mem l0 hl)

theorem splitNL_single {l : List Char} (h : '\n' ∉ l) : splitNL l = [l] := by
  induction l with
  | nil => rfl
  | cons c rest ih =>
    have hc : ¬(c = '\n') := fun hcc => h (hcc ▸ List.mem_cons_self c rest)
    have hr : splitNL rest = [rest] := ih (fun hm => h (List.mem_cons_of_mem c hm))
    simp [splitNL, hc, hr]

theorem splitNL_append {l : List Char} (h : '\n' ∉ l) (r : List Char) :
    splitNL (l ++ '\n' :: r) = l :: splitNL r := by
  induction l with
  | nil => simp [splitNL]
  | cons c t ih =>
    have hc : ¬(c = '\n') := fun hcc => h (hcc ▸ List.mem_cons_self c t)
    have ht := ih (fun hm => h (List.mem_cons_of_mem c hm))
    simp [splitNL, hc, ht]

theorem splitNL_joinNL {ls : List (List Char)} (h0 : ls ≠ [])
    (h : ∀ l ∈ ls, '\n' ∉ l) : splitNL (joinNL ls) = ls := by
  induction ls with
  | nil => cases h0 rfl
  | cons l ls' ih =>
    cases ls' with
    | nil => exact splitNL_single (h l (List.mem_cons_self l []))
    | cons l2 ls'' =>
      have hjoin : joinNL (l :: l2 :: ls'') = l ++ '\n' :: joinNL (l2 :: ls'') := rfl
      rw [hjoin, splitNL_append (h l (List.mem_cons_self l _)),
        ih (by simp) (fun x hx => h x (List.mem_cons_of_mem l hx))]

/-! ## Claims C10, C9, C7, C4, C8 -/

/-- Claim C10: the quote-repair pass is idempotent — every value the
pass rewrites is left wrapped in double quotes, and such values are
skipped on a second pass. -/
theorem fix_broken_quotes_idem (s : String) :
    fix_broken_quotes (fix_broken_quotes s) = fix_broken_quotes s := by
  have hL : ∀ l ∈ (splitNL s.data).map fixLine, '\n' ∉ l := by
    intro l hl
    obtain ⟨l0, hl0, rfl⟩ := List.mem_map.mp hl
    exact fixLine_no_nl (mem_splitNL_no_nl s.data l0 hl0)
  have hne : (splitNL s.data).map fixLine ≠ [] := by
    intro hmap
    exact splitNL_ne_nil s.data (List.map_eq_nil_iff.mp hmap)
  show (⟨joinNL ((splitNL (joinNL ((splitNL s.data).map fixLine))).map fixLine)⟩ :
      String) = ⟨joinNL ((splitNL s.data).map fixLine)⟩
  rw [splitNL_joinNL hne hL, List.map_map]
  congr 2
  exact List.map_congr_left (fun a _ => fixLine_idem a)

/-- Claim C9: the quote-repair pass turns the malformed line
`summary: he said "go now" quickly` into a line that re-parses as YAML
with exactly the literal text as the value of `summary`. -/
theorem fix_broken_quotes_repairs_example :
    fix_broken_quotes "summary: he said \"go now\" quickly" =
      "summary: \"he said \\\"go now\\\" quickly\"" ∧
    yamlParseSimpleLine
        (fix_broken_quotes "summary: he said \"go now\" quickly") =
      some ("summary", "he said \"go now\" quickly") := by
  constructor
  · rfl
  · rfl

/-- Claim C7 counterexample: on the stacked-label text `A. B. x` the
option-label stripping removes one label per application, so applying
it twice differs from applying it once. -/
theorem stripOptionLabel_not_idem :
    stripOptionLabel "A. B. x" = "B. x" ∧
    stripOptionLabel (stripOptionLabel "A. B. x") = "x" ∧
    stripOptionLabel (stripOptionLabel "A. B. x") ≠
      stripOptionLabel "A. B. x" := by
  refine ⟨rfl, rfl, ?_⟩
  decide

/-- Claim C7 (amended): option-label stripping is a no-op on a text
with no leading label, so stripping twice equals stripping once
whenever the once-stripped text carries no further label. -/
theorem stripOptionLabel_idem_of_clean (s : String)
    (h : labelRest (stripOptionLabel s).data = none) :
    stripOptionLabel (stripOptionLabel s) = stripOptionLabel s := by
  show (⟨stripLabel (stripLabel s.data)⟩ : String) = ⟨stripLabel s.data⟩
  have h' : labelRest (stripLabel s.data) = none := h
  generalize stripLabel s.data = X at h' ⊢
  simp [stripLabel, h']

/-- Witness for C7's amended theorem at the already-labelled option
text `A. first option`. -/
theorem stripOptionLabel_idem_witness :
    labelRest (stripOptionLabel "A. first option").data = none ∧
    stripOptionLabel (stripOptionLabel "A. first option") =
      stripOptionLabel "A. first option" :=
  ⟨by decide, stripOptionLabel_idem_of_clean "A. first option" (by decide)⟩

/-- Claim C4: when both the primary YAML parse and the re-parse after
the quote-repair pass fail, `parse_knowledge_graph` returns the
knowledge graph with every default value (empty meta, context,
entities, relationships); both failures are caught, so no exception
reaches the caller. -/
theorem parse_knowledge_graph_double_failure
    (safeLoad : String → Except String Yaml) (output e1 e2 : String)
    (h1 : safeLoad (yamlContentOf output) = .error e1)
    (h2 : safeLoad (fix_broken_quotes (yamlContentOf output)) = .error e2) :
    parse_knowledge_graph safeLoad output = KnowledgeGraph.empty ∧
    (parse_knowledge_graph safeLoad output).meta = ⟨"", "", [], [], [], "", ""⟩ ∧
    (parse_knowledge_graph safeLoad output).context = ⟨"", []⟩ ∧
    (parse_knowledge_graph safeLoad output).entities = [] ∧
    (parse_knowledge_graph safeLoad output).relationships = [] := by
  have he : parse_knowledge_graph safeLoad output = KnowledgeGraph.empty := by
    simp [parse_knowledge_graph, h1, h2]
  exact ⟨he, by rw [he]; rfl, by rw [he]; rfl, by rw [he]; rfl, by rw [he]; rfl⟩

/-- Witness for C4 at a loader that rejects every input. -/
theorem parse_knowledge_graph_double_failure_witness :
    parse_knowledge_graph (fun _ => .error "unparseable") "not yaml: [" =
      KnowledgeGraph.empty ∧
    (parse_knowledge_graph (fun _ => .error "unparseable") "not yaml: [").meta =
      ⟨"", "", [], [], [], "", ""⟩ ∧
    (parse_knowledge_graph (fun _ => .error "unparseable") "not yaml: [").context =
      ⟨"", []⟩ ∧
    (parse_knowledge_graph (fun _ => .error "unparseable") "not yaml: [").entities = [] ∧
    (parse_knowledge_graph (fun _ => .error "unparseable") "not yaml: [").relationships
      = [] :=
  parse_knowledge_graph_double_failure (fun _ => .error "unparseable")
    "not yaml: [" "unparseable" "unparseable" rfl rfl

theorem _ensure_list_non_list {v : Yaml} (hv : ∀ xs, v ≠ Yaml.list xs) :
    _ensure_list v = if truthy v then [pyStr v] else [] := by
  cases v with
  | list xs => exact absurd rfl (hv xs)
  | str s => rfl
  | int n => rfl
  | bool b => rfl
  | null => rfl
  | dict kvs => rfl

theorem buildKG_meta_fields {kvs m : List (String × Yaml)}
    (hm : kvs.lookup "meta" = some (.dict m)) :
    (buildKG kvs).meta.topic = _ensure_list (yGet m "topic" (.list [])) ∧
    (buildKG kvs).meta.keywords = _ensure_list (yGet m "keywords" (.list [])) ∧
    (buildKG kvs).meta.tone = _ensure_list (yGet m "tone" (.list [])) := by
  refine ⟨?_, ?_, ?_⟩ <;> simp [buildKG, hm]

theorem buildKG_context_main_points {kvs c : List (String × Yaml)}
    (hc : kvs.lookup "context" = some (.dict c)) :
    (buildKG kvs).context.main_points =
      _ensure_list (yGet c "main_points" (.list [])) := by
  simp [buildKG, hc]

/-- Claim C8 counterexample: the field value `topic: ''` is present and
is not a list, yet `_ensure_list` (and hence the `meta` coercion of
`parse_knowledge_graph`) turns it into the empty list rather than the
one-element list containing the value — Python truthiness decides. -/
theorem ensure_list_falsy_counterexample :
    _ensure_list (Yaml.str "") = [] ∧
    pyStr (Yaml.str "") = "" ∧
    _ensure_list (Yaml.str "") ≠ [pyStr (Yaml.str "")] ∧
    (parse_knowledge_graph kgOracle0 "meta:\n  topic: ''").meta.topic = [] ∧
    (parse_knowledge_graph kgOracle0 "meta:\n  topic: ''").meta.topic ≠ [""] := by
  refine ⟨rfl, rfl, by decide, rfl, by decide⟩

/-- Claim C8 (amended): a meta/context list field that is absent
becomes the empty list; a present non-list value becomes the
one-element list of its string form when it is truthy, and the empty
list when it is falsy (empty string, 0, false, null, empty container). -/
theorem parse_knowledge_graph_list_coercion
    (safeLoad : String → Except String Yaml) (output : String)
    (kvs : List (String × Yaml))
    (h : safeLoad (yamlContentOf output) = .ok (.dict kvs)) :
    (∀ m v, kvs.lookup "meta" = some (.dict m) → m.lookup "topic" = some v →
      (∀ xs, v ≠ Yaml.list xs) →
      (parse_knowledge_graph safeLoad output).meta.topic =
        (if truthy v then [pyStr v] else [])) ∧
    (∀ m, kvs.lookup "meta" = some (.dict m) → m.lookup "topic" = none →
      (parse_knowledge_graph safeLoad output).meta.topic = []) ∧
    (∀ m v, kvs.lookup "meta" = some (.dict m) → m.lookup "keywords" = some v →
      (∀ xs, v ≠ Yaml.list xs) →
      (parse_knowledge_graph safeLoad output).meta.keywords =
        (if truthy v then [pyStr v] else [])) ∧
    (∀ m, kvs.lookup "meta" = some (.dict m) → m.lookup "keywords" = none →
      (parse_knowledge_graph safeLoad output).meta.keywords = []) ∧
    (∀ m v, kvs.lookup "meta" = some (.dict m) → m.lookup "tone" = some v →
      (∀ xs, v ≠ Yaml.list xs) →
      (parse_knowledge_graph safeLoad output).meta.tone =
        (if truthy v then [pyStr v] else [])) ∧
    (∀ m, kvs.lookup "meta" = some (.dict m) → m.lookup "tone" = none →
      (parse_knowledge_graph safeLoad output).meta.tone = []) ∧
    (∀ c v, kvs.lookup "context" = some (.dict c) →
      c.lookup "main_points" = some v → (∀ xs, v ≠ Yaml.list xs) →
      (parse_knowledge_graph safeLoad output).context.main_points =
        (if truthy v then [pyStr v] else [])) ∧
    (∀ c, kvs.lookup "context" = some (.dict c) →
      c.lookup "main_points" = none →
      (parse_knowledge_graph safeLoad output).context.main_points = []) := by
  have hkg : parse_knowledge_graph safeLoad output = buildKG kvs := by
    simp [parse_knowledge_graph, h]
  rw [hkg]
  refine ⟨?_, ?_, ?_, ?_, ?_, ?_, ?_, ?_⟩
  · intro m v hm hv hnl
    rw [(buildKG_meta_fields hm).1]
    simp only [yGet, hv, Option.getD_some]
    exact _ensure_list_non_list hnl
  · intro m hm hv
    rw [(buildKG_meta_fields hm).1]
    simp [yGet, hv, _ensure_list]
  · intro m v hm hv hnl
    rw [(buildKG_meta_fields hm).2.1]
    simp only [yGet, hv, Option.getD_some]
    exact _ensure_list_non_list hnl
  · intro m hm hv
    rw [(buildKG_meta_fields hm).2.1]
    simp [yGet, hv, _ensure_list]
  · intro m v hm hv hnl
    rw [(buildKG_meta_fields hm).2.2]
    simp only [yGet, hv, Option.getD_some]
    exact _ensure_list_non_list hnl
  · intro m hm hv
    rw [(buildKG_meta_fields hm).2.2]
    simp [yGet, hv, _ensure_list]
  · intro c v hc hv hnl
    rw [buildKG_context_main_points hc]
    simp only [yGet, hv, Option.getD_some]
    exact _ensure_list_non_list hnl
  · intro c hc hv
    rw [buildKG_context_main_points hc]
    simp [yGet, hv, _ensure_list]

/-- Witness for C8's amended theorem at the concrete oracle of the
counterexample input. -/
theorem parse_knowledge_graph_list_coercion_witness :
    (parse_knowledge_graph kgOracle0 "meta:\n  topic: ''").meta.topic =
      (if truthy (Yaml.str "") then [pyStr (Yaml.str "")] else []) :=
  (parse_knowledge_graph_list_coercion kgOracle0 "meta:\n  topic: ''"
    [("meta", .dict [("topic", .str "")])] rfl).1
    [("topic", .str "")] (.str "") rfl rfl (fun _ h => by cases h)

/-! ## Claim C6: heading-depth normalization -/

theorem normAux_cons_start (lo f : Nat) (c : Char) (cs : List Char) :
    normAux lo (f + 1) true (c :: cs) =
      match matchHeading lo (c :: cs) with
      | some (nl, rest) => '#' :: '#' :: '#' :: normAux lo f nl rest
      | none => c :: normAux lo f (c == '\n') cs := by
  simp [normAux]

theorem normAux_cons_nostart (lo f : Nat) (c : Char) (cs : List Char) :
    normAux lo (f + 1) false (c :: cs) = c :: normAux lo f (c == '\n') cs := by
  simp [normAux]

theorem matchHeading_consumes {lo : Nat} (hlo : 1 ≤ lo) {cs : List Char}
    {nl : Bool} {rest : List Char} (h : matchHeading lo cs = some (nl, rest)) :
    rest.length + 2 ≤ cs.length := by
  simp only [matchHeading] at h
  split at h
  case isTrue hb =>
    split at h
    case isTrue => cases h
    case isFalse hws =>
      injection h with h'
      injection h' with hnl hrest
      have h1 : (cs.takeWhile (· == '#')).length ≤ cs.length :=
        (List.takeWhile_sublist _).length_le
      have h2 : ((cs.drop (cs.takeWhile (· == '#')).length).takeWhile
          pyIsSpace).length ≤ (cs.drop (cs.takeWhile (· == '#')).length).length :=
        (List.takeWhile_sublist _).length_le
      have h3 : 1 ≤ ((cs.drop (cs.takeWhile (· == '#')).length).takeWhile
          pyIsSpace).length := by
        rcases hww : ((cs.drop (cs.takeWhile (· == '#')).length).takeWhile
            pyIsSpace) with _ | ⟨a, t⟩
        · rw [hww] at hws; simp at hws
        · simp [hww]
      have h4 : (cs.drop (cs.takeWhile (· == '#')).length).length =
          cs.length - (cs.takeWhile (· == '#')).length :=
        List.length_drop _ _
      have h5 : rest.length = (cs.drop (cs.takeWhile (· == '#')).length).length -
          ((cs.drop (cs.takeWhile (· == '#')).length).takeWhile
            pyIsSpace).length := by
        rw [← hrest, List.length_drop]
      obtain ⟨hbl, _⟩ := hb
      omega
  case isFalse => cases h

theorem normAux_fuel {lo : Nat} (hlo : 1 ≤ lo) :
    ∀ f1 f2 : Nat, ∀ b : Bool, ∀ cs : List Char,
      cs.length < f1 → cs.length < f2 →
      normAux lo f1 b cs = normAux lo f2 b cs := by
  intro f1
  induction f1 with
  | zero => intro f2 b cs h1 _; omega
  | succ f1 ih =>
    intro f2 b cs h1 h2
    cases cs with
    | nil =>
      cases f2 with
      | zero => omega
      | succ f2 => rfl
    | cons c cs' =>
      cases f2 with
      | zero => omega
      | succ f2 =>
        simp only [List.length_cons] at h1 h2
        by_cases hb : b = true
        · subst hb
          rw [normAux_cons_start, normAux_cons_start]
          cases hm : matchHeading lo (c :: cs') with
          | none =>
            show c :: normAux lo f1 (c == '\n') cs' =
              c :: normAux lo f2 (c == '\n') cs'
            rw [ih f2 (c == '\n') cs' (by omega) (by omega)]
          | some nr =>
            obtain ⟨nl, rest⟩ := nr
            have hcons := matchHeading_consumes hlo hm
            simp only [List.length_cons] at hcons
            show '#' :: '#' :: '#' :: normAux lo f1 nl rest =
              '#' :: '#' :: '#' :: normAux lo f2 nl rest
            rw [ih f2 nl rest (by omega) (by omega)]
        · have hb' : b = false := by
            cases b
            · rfl
            · exact absurd rfl hb
          subst hb'
          rw [normAux_cons_nostart, normAux_cons_nostart]
          rw [ih f2 (c == '\n') cs' (by omega) (by omega)]

/-- A line that opens with `lo ≤ k ≤ 4` hashes followed by a single
space and then a non-space continuation is rewritten to the canonical
`###` marker, the substitution continuing on the rest. -/
theorem normalize_heading (lo k : Nat) (t : List Char) (hlo : 1 ≤ lo)
    (hk1 : lo ≤ k) (hk4 : k ≤ 4)
    (ht : t = [] ∨ ∃ c t', t = c :: t' ∧ pyIsSpace c = false) :
    pyNormalizeHeadings lo ⟨List.replicate k '#' ++ ' ' :: t⟩ =
      ⟨'#' :: '#' :: '#' :: normAux lo (t.length + 1) false t⟩ := by
  obtain ⟨k', rfl⟩ : ∃ k', k = k' + 1 := ⟨k - 1, by omega⟩
  have hhash : ∀ c ∈ List.replicate (k' + 1) '#', (c == '#') = true := by
    intro c hc
    rw [List.eq_of_mem_replicate hc]; rfl
  have htws : t.takeWhile pyIsSpace = [] := by
    rcases ht with rfl | ⟨c, t', rfl, hc⟩
    · rfl
    · exact takeWhile_cons_neg hc t'
  have hmh : matchHeading lo (List.replicate (k' + 1) '#' ++ ' ' :: t) =
      some (false, t) := by
    simp only [matchHeading]
    rw [takeWhile_append_sat hhash,
      takeWhile_cons_neg (p := fun x => x == '#') (c := ' ') (by decide),
      List.append_nil, List.length_replicate]
    rw [if_pos ⟨hk1, hk4⟩]
    rw [show (List.replicate (k' + 1) '#' ++ ' ' :: t).drop (k' + 1) = ' ' :: t by
      have hd := List.drop_left (List.replicate (k' + 1) '#') (' ' :: t)
      rwa [List.length_replicate] at hd]
    rw [List.takeWhile_cons_of_pos (show pyIsSpace ' ' = true by decide), htws]
    rfl
  have hrep : List.replicate (k' + 1) '#' ++ ' ' :: t =
      '#' :: (List.replicate k' '#' ++ ' ' :: t) := by
    rw [List.replicate_succ]; rfl
  have hmh' : matchHeading lo ('#' :: (List.replicate k' '#' ++ ' ' :: t)) =
      some (false, t) := hrep ▸ hmh
  show (⟨normAux lo ((List.replicate (k' + 1) '#' ++ ' ' :: t).length + 1) true
      (List.replicate (k' + 1) '#' ++ ' ' :: t)⟩ : String) = _
  rw [hrep]
  rw [show ('#' :: (List.replicate k' '#' ++ ' ' :: t)).length + 1 =
    ((List.replicate k' '#' ++ ' ' :: t).length + 1) + 1 by simp]
  rw [normAux_cons_start, hmh']
  show (⟨'#' :: '#' :: '#' ::
    normAux lo ((List.replicate k' '#' ++ ' ' :: t).length + 1) false t⟩ :
      String) = _
  rw [normAux_fuel hlo ((List.replicate k' '#' ++ ' ' :: t).length + 1)
    (t.length + 1) false t (by simp; omega) (by omega)]

/-- Claim C6 counterexample: a depth-1 heading marker is normalized by
the `src/question.py` segmenter but left untouched by the demo
segmenter (`Demo.parse_llm_output` splits only after normalizing with
`pyNormalizeHeadings 2`). -/
theorem demo_normalize_misses_depth_one :
    pyNormalizeHeadings 2 "# Q" = "# Q" ∧
    pyNormalizeHeadings 1 "# Q" = "###Q" ∧
    pyNormalizeHeadings 2 "# Q" ≠ pyNormalizeHeadings 1 "# Q" := by
  refine ⟨rfl, rfl, by decide⟩

/-- Claim C6 (amended): before splitting, the `src/question.py`
segmenter rewrites heading markers of depth 1-4 to the canonical
depth, while the demo segmenter rewrites only depths 2-4. -/
theorem normalize_heading_depths (k : Nat) (t : List Char)
    (hk1 : 1 ≤ k) (hk4 : k ≤ 4)
    (ht : t = [] ∨ ∃ c t', t = c :: t' ∧ pyIsSpace c = false) :
    pyNormalizeHeadings 1 ⟨List.replicate k '#' ++ ' ' :: t⟩ =
      ⟨'#' :: '#' :: '#' :: normAux 1 (t.length + 1) false t⟩ ∧
    (2 ≤ k →
      pyNormalizeHeadings 2 ⟨List.replicate k '#' ++ ' ' :: t⟩ =
        ⟨'#' :: '#' :: '#' :: normAux 2 (t.length + 1) false t⟩) :=
  ⟨normalize_heading 1 k t (by omega) hk1 hk4 ht,
   fun h2 => normalize_heading 2 k t (by omega) h2 hk4 ht⟩

/-- Witness for C6's amended theorem at a depth-2 heading. -/
theorem normalize_heading_depths_witness :
    pyNormalizeHeadings 1 ⟨List.replicate 2 '#' ++ ' ' :: ['Q']⟩ =
      ⟨'#' :: '#' :: '#' :: normAux 1 (['Q'].length + 1) false ['Q']⟩ ∧
    (2 ≤ 2 →
      pyNormalizeHeadings 2 ⟨List.replicate 2 '#' ++ ' ' :: ['Q']⟩ =
        ⟨'#' :: '#' :: '#' :: normAux 2 (['Q'].length + 1) false ['Q']⟩) :=
  normalize_heading_depths 2 ['Q'] (by decide) (by decide)
    (Or.inr ⟨'Q', [], rfl, by decide⟩)

/-! ## Claim C5: blocks without an option or answer line -/

/-- Claim C5: a block with no recognizable option line or no
recognizable answer line produces zero question records in both
extractors (the demo validator recognizes an answer line via the
strict single-letter regex, `src/question.py` via the `>` prefix). -/
theorem no_record_without_option_or_answer (block : List Char) (qid : Nat) :
    (((∀ l ∈ linesOf block, startsWithB l ['-'] = false) ∨
      (∀ l ∈ linesOf block, Demo.hasAnswerLine l = false)) →
        Demo.parseBlock block qid = none) ∧
    (((∀ l ∈ linesOf block, startsWithB l ['-'] = false) ∨
      (∀ l ∈ linesOf block, startsWithB l ['>'] = false)) →
        QPy.parseBlock block = .ok none) := by
  constructor
  · intro h
    have hcond : (!((linesOf block).any fun l => startsWithB l ['-']) ||
        !((linesOf block).any Demo.hasAnswerLine)) = true := by
      rcases h with h | h
      · have hh : ((linesOf block).any fun l => startsWithB l ['-']) = false :=
          List.any_eq_false.mpr (fun x hx => by simp [h x hx])
        simp [hh]
      · have hh : ((linesOf block).any Demo.hasAnswerLine) = false :=
          List.any_eq_false.mpr (fun x hx => by simp [h x hx])
        simp [hh]
    unfold Demo.parseBlock
    cases hl : linesOf block with
    | nil => rfl
    | cons l0 rest =>
      rw [hl] at hcond
      simp only [hcond, if_true]
  · intro h
    have hcond : (!((linesOf block).any fun l => startsWithB l ['-']) ||
        !((linesOf block).any fun l => startsWithB l ['>'])) = true := by
      rcases h with h | h
      · have hh : ((linesOf block).any fun l => startsWithB l ['-']) = false :=
          List.any_eq_false.mpr (fun x hx => by simp [h x hx])
        simp [hh]
      · have hh : ((linesOf block).any fun l => startsWithB l ['>']) = false :=
          List.any_eq_false.mpr (fun x hx => by simp [h x hx])
        simp [hh]
    unfold QPy.parseBlock
    cases hl : linesOf block with
    | nil => rfl
    | cons l0 rest =>
      rw [hl] at hcond
      simp only [hcond, if_true]

/-- Witness for C5 at a prose block with neither options nor answers. -/
theorem no_record_without_option_or_answer_witness :
    (∀ l ∈ linesOf "some prose the generator emitted".data,
      startsWithB l ['-'] = false) ∧
    Demo.parseBlock "some prose the generator emitted".data 1 = none ∧
    QPy.parseBlock "some prose the generator emitted".data = .ok none := by
  refine ⟨by decide, ?_, ?_⟩
  · exact (no_record_without_option_or_answer
      "some prose the generator emitted".data 1).1 (Or.inl (by decide))
  · exact (no_record_without_option_or_answer
      "some prose the generator emitted".data 1).2 (Or.inl (by decide))

/-! ## Claim C1: range of the correct-answer index -/

theorem Demo.letterIdx_lt {l : List Char} {n : Nat}
    (h : Demo.letterIdx l = some n) : n < 4 := by
  unfold Demo.letterIdx at h
  split_ifs at h <;> (injection h with h'; omega)

theorem Demo.parseBlock_correct_lt {block : List Char} {qid : Nat}
    {q : Demo.Question} (h : Demo.parseBlock block qid = some q) :
    q.correct < 4 := by
  simp only [Demo.parseBlock] at h
  split at h
  · cases h
  next l0 rest =>
    split at h
    · cases h
    · split at h
      · cases h
      next alineIdx =>
        split at h
        · cases h
        next ci hci =>
          injection h with h'
          subst h'
          exact Demo.letterIdx_lt hci

theorem Demo.goBlocks_correct_lt :
    ∀ (bs : List (List Char)) (qid : Nat) (q : Demo.Question),
      q ∈ Demo.goBlocks bs qid → q.correct < 4 := by
  intro bs
  induction bs with
  | nil => intro qid q h; cases h
  | cons b bs ih =>
    intro qid q h
    unfold Demo.goBlocks at h
    cases hb : Demo.parseBlock b qid with
    | some q0 =>
      rw [hb] at h
      rcases List.mem_cons.mp h with rfl | h
      · exact Demo.parseBlock_correct_lt hb
      · exact ih (qid + 1) q h
    | none =>
      rw [hb] at h
      exact ih qid q h

theorem QPy.letterIdxInt_cases (l : List Char) :
    QPy.letterIdxInt l = 0 ∨ QPy.letterIdxInt l = 1 ∨
    QPy.letterIdxInt l = 2 ∨ QPy.letterIdxInt l = 3 ∨
    QPy.letterIdxInt l = -1 := by
  unfold QPy.letterIdxInt
  split_ifs <;> simp

theorem QPy.parseBlock_correct_range {block : List Char} {q : QPy.Question}
    (h : QPy.parseBlock block = .ok (some q)) :
    0 ≤ q.correct ∧ q.correct < 4 := by
  simp only [QPy.parseBlock] at h
  split at h
  · cases h
  next l0 rest =>
    split at h
    · cases h
    · split at h
      · cases h
      next av heq =>
        split at h
        case isTrue => cases h
        case isFalse hne =>
          injection h with h'
          injection h' with h''
          subst h''
          have hcases := QPy.letterIdxInt_cases (answerLetterOf av)
          rcases hcases with hv | hv | hv | hv | hv
          · rw [hv]; constructor <;> norm_num
          · rw [hv]; constructor <;> norm_num
          · rw [hv]; constructor <;> norm_num
          · rw [hv]; constructor <;> norm_num
          · rw [hv] at hne; simp at hne

theorem QPy.goBlocks_correct_range :
    ∀ (bs : List (List Char)) (qs : List QPy.Question) (q : QPy.Question),
      QPy.goBlocks bs = .ok qs → q ∈ qs → 0 ≤ q.correct ∧ q.correct < 4 := by
  intro bs
  induction bs with
  | nil =>
    intro qs q h hq
    unfold QPy.goBlocks at h
    injection h with h'
    subst h'
    cases hq
  | cons b bs ih =>
    intro qs q h hq
    unfold QPy.goBlocks at h
    cases hb : QPy.parseBlock b with
    | error e => rw [hb] at h; cases h
    | ok oq =>
      rw [hb] at h
      cases oq with
      | none => exact ih qs q h hq
      | some q0 =>
        cases hg : QPy.goBlocks bs with
        | error e => rw [hg] at h; cases h
        | ok qs' =>
          rw [hg] at h
          injection h with h'
          subst h'
          rcases List.mem_cons.mp hq with rfl | hq
          · exact QPy.parseBlock_correct_range hb
          · exact ih qs' q hg hq

/-- Claim C1 counterexample: the block `### Q` with two option lines
and answer letter `D` produces a Question with `correct = 3` and only
two options, so `correct < len(options)` fails (the demo extractor;
`src/question.py` behaves identically on this input). -/
theorem correct_index_can_exceed_options :
    (Demo.parse_llm_output "### Q\n- a\n- b\n> D").questions =
      [⟨1, "Q", ["a", "b"], 3, "No explanation provided.", "General"⟩] ∧
    (∃ q ∈ (Demo.parse_llm_output "### Q\n- a\n- b\n> D").questions,
      q.options.length ≤ q.correct) ∧
    QPy.parse_llm_output "### Q\n- a\n- b\n> D" =
      .ok [⟨"Q", ["a", "b"], 3, "General"⟩] := by
  refine ⟨by decide, ?_, by decide⟩
  decide

/-- Claim C1 (amended): both extractors only construct a Question when
the answer letter resolves, and the resolved index always lies in
`[0, 4)` — but it need not lie below the number of option lines
actually present. -/
theorem parse_llm_output_correct_bound :
    (∀ (output : String) (q : Demo.Question),
      q ∈ (Demo.parse_llm_output output).questions → q.correct < 4) ∧
    (∀ (output : String) (qs : List QPy.Question) (q : QPy.Question),
      QPy.parse_llm_output output = .ok qs → q ∈ qs →
        0 ≤ q.correct ∧ q.correct < 4) := by
  constructor
  · intro output q h
    exact Demo.goBlocks_correct_lt _ 1 q h
  · intro output qs q h hq
    exact QPy.goBlocks_correct_range _ qs q h hq

/-- Witness for C1's amended theorem at the counterexample input. -/
theorem parse_llm_output_correct_bound_witness :
    (⟨1, "Q", ["a", "b"], 3, "No explanation provided.", "General"⟩ :
      Demo.Question).correct < 4 ∧
    (0 ≤ (⟨"Q", ["a", "b"], 3, "General"⟩ : QPy.Question).correct ∧
      (⟨"Q", ["a", "b"], 3, "General"⟩ : QPy.Question).correct < 4) :=
  ⟨parse_llm_output_correct_bound.1 "### Q\n- a\n- b\n> D" _ (by decide),
   parse_llm_output_correct_bound.2 "### Q\n- a\n- b\n> D"
     [⟨"Q", ["a", "b"], 3, "General"⟩] _ (by decide) (by decide)⟩

/-! ## Claim C2: row-wise best-match selection -/

theorem rowMaxAux_spec (xs : List ℚ) : ∀ (j : Nat) (m : ℚ) (mi : Nat),
    m ≤ (rowMaxAux j (m, mi) xs).1 ∧
    (rowMaxAux j (m, mi) xs = (m, mi) ∨
      ∃ p, xs.get? p = some (rowMaxAux j (m, mi) xs).1 ∧
        (rowMaxAux j (m, mi) xs).2 = j + p ∧
        m < (rowMaxAux j (m, mi) xs).1 ∧
        ∀ qi y, qi < p → xs.get? qi = some y →
          y < (rowMaxAux j (m, mi) xs).1) ∧
    (∀ y ∈ xs, y ≤ (rowMaxAux j (m, mi) xs).1) := by
  induction xs with
  | nil =>
    intro j m mi
    refine ⟨le_refl _, Or.inl rfl, ?_⟩
    intro y hy; cases hy
  | cons x xs ih =>
    intro j m mi
    by_cases hx : x > m
    · have hred : rowMaxAux j (m, mi) (x :: xs) = rowMaxAux (j + 1) (x, j) xs := by
        simp [rowMaxAux, hx]
      obtain ⟨h1, h2, h3⟩ := ih (j + 1) x j
      rw [hred]
      refine ⟨le_trans (le_of_lt hx) h1, ?_, ?_⟩
      · rcases h2 with he | ⟨p, hp1, hp2, hp3, hp4⟩
        · right
          refine ⟨0, ?_, ?_, ?_, ?_⟩
          · rw [he]; rfl
          · rw [he]; simp
          · rw [he]; exact hx
          · intro qi y hqi _; omega
        · right
          refine ⟨p + 1, ?_, ?_, ?_, ?_⟩
          · simpa using hp1
          · rw [hp2]; omega
          · exact lt_trans hx hp3
          · intro qi y hqi hy
            cases qi with
            | zero =>
              have hyx : x = y := by simpa using hy
              rw [← hyx]; exact hp3
            | succ qi' =>
              exact hp4 qi' y (by omega) (by simpa using hy)
      · intro y hy
        rcases List.mem_cons.mp hy with rfl | hy
        · exact h1
        · exact h3 y hy
    · have hxle : x ≤ m := not_lt.mp hx
      have hred : rowMaxAux j (m, mi) (x :: xs) = rowMaxAux (j + 1) (m, mi) xs := by
        simp [rowMaxAux, hx]
      obtain ⟨h1, h2, h3⟩ := ih (j + 1) m mi
      rw [hred]
      refine ⟨h1, ?_, ?_⟩
      · rcases h2 with he | ⟨p, hp1, hp2, hp3, hp4⟩
        · left; exact he
        · right
          refine ⟨p + 1, by simpa using hp1, by rw [hp2]; omega, hp3, ?_⟩
          intro qi y hqi hy
          cases qi with
          | zero =>
            have hyx : x = y := by simpa using hy
            rw [← hyx]; exact lt_of_le_of_lt hxle hp3
          | succ qi' =>
            exact hp4 qi' y (by omega) (by simpa using hy)
      · intro y hy
        rcases List.mem_cons.mp hy with rfl | hy
        · exact le_trans hxle h1
        · exact h3 y hy

/-- The row reduction returns the value of the maximum, attained at the
returned index, and every strictly earlier index scores strictly less
(first occurrence wins ties). -/
theorem rowMaxFirst_first_argmax (row : List ℚ) (hne : row ≠ []) :
    row.get? (rowMaxFirst row).2 = some (rowMaxFirst row).1 ∧
    (∀ j y, row.get? j = some y → y ≤ (rowMaxFirst row).1) ∧
    (∀ j y, j < (rowMaxFirst row).2 → row.get? j = some y →
      y < (rowMaxFirst row).1) := by
  obtain ⟨x, xs, rfl⟩ : ∃ x xs, row = x :: xs := by
    cases row with
    | nil => cases hne rfl
    | cons x xs => exact ⟨x, xs, rfl⟩
  have hred : rowMaxFirst (x :: xs) = rowMaxAux 1 (x, 0) xs := rfl
  obtain ⟨h1, h2, h3⟩ := rowMaxAux_spec xs 1 x 0
  rw [hred]
  refine ⟨?_, ?_, ?_⟩
  · rcases h2 with he | ⟨p, hp1, hp2, hp3, hp4⟩
    · rw [he]; rfl
    · rw [hp2, show 1 + p = p + 1 from by omega]
      simpa using hp1
  · intro j y hy
    cases j with
    | zero =>
      have hxy : x = y := by simpa using hy
      rw [← hxy]; exact h1
    | succ j' =>
      exact h3 y (List.get?_mem (by simpa using hy))
  · intro j y hj hy
    rcases h2 with he | ⟨p, hp1, hp2, hp3, hp4⟩
    · rw [he] at hj
      simp at hj
    · rw [hp2] at hj
      cases j with
      | zero =>
        have hxy : x = y := by simpa using hy
        rw [← hxy]; exact hp3
      | succ j' =>
        exact hp4 j' y (by omega) (by simpa using hy)

theorem lexAux_spec (xs : List (ℚ × ℚ)) : ∀ (j : Nat) (st : ℚ × ℚ × Int),
    (st.1 + st.2.1) / 2 ≤ ((lexAux j st xs).1 + (lexAux j st xs).2.1) / 2 ∧
    (lexAux j st xs = st ∨
      ∃ p, xs.get? p = some ((lexAux j st xs).1, (lexAux j st xs).2.1) ∧
        (lexAux j st xs).2.2 = ((j + p : Nat) : Int) ∧
        (st.1 + st.2.1) / 2 < ((lexAux j st xs).1 + (lexAux j st xs).2.1) / 2 ∧
        ∀ qi y, qi < p → xs.get? qi = some y →
          (y.1 + y.2) / 2 < ((lexAux j st xs).1 + (lexAux j st xs).2.1) / 2) ∧
    (∀ y ∈ xs, (y.1 + y.2) / 2 ≤
      ((lexAux j st xs).1 + (lexAux j st xs).2.1) / 2) := by
  induction xs with
  | nil =>
    intro j st
    refine ⟨le_refl _, Or.inl rfl, ?_⟩
    intro y hy; cases hy
  | cons x xs ih =>
    intro j st
    obtain ⟨b, r⟩ := x
    by_cases hx : (b + r) / 2 > (st.1 + st.2.1) / 2
    · have hred : lexAux j st ((b, r) :: xs) =
          lexAux (j + 1) (b, r, (j : Int)) xs := by
        simp [lexAux, hx]
      obtain ⟨h1, h2, h3⟩ := ih (j + 1) (b, r, (j : Int))
      rw [hred]
      refine ⟨le_trans (le_of_lt hx) h1, ?_, ?_⟩
      · rcases h2 with he | ⟨p, hp1, hp2, hp3, hp4⟩
        · right
          refine ⟨0, ?_, ?_, ?_, ?_⟩
          · rw [he]; rfl
          · rw [he]; simp
          · rw [he]; exact hx
          · intro qi y hqi _; omega
        · right
          refine ⟨p + 1, ?_, ?_, ?_, ?_⟩
          · simpa using hp1
          · rw [hp2]; congr 1; omega
          · exact lt_trans hx hp3
          · intro qi y hqi hy
            cases qi with
            | zero =>
              have hyx : (b, r) = y := by simpa using hy
              rw [← hyx]; exact hp3
            | succ qi' =>
              exact hp4 qi' y (by omega) (by simpa using hy)
      · intro y hy
        rcases List.mem_cons.mp hy with rfl | hy
        · exact h1
        · exact h3 y hy
    · have hxle : (b + r) / 2 ≤ (st.1 + st.2.1) / 2 := not_lt.mp hx
      have hred : lexAux j st ((b, r) :: xs) = lexAux (j + 1) st xs := by
        simp [lexAux, hx]
      obtain ⟨h1, h2, h3⟩ := ih (j + 1) st
      rw [hred]
      refine ⟨h1, ?_, ?_⟩
      · rcases h2 with he | ⟨p, hp1, hp2, hp3, hp4⟩
        · left; exact he
        · right
          refine ⟨p + 1, by simpa using hp1, by rw [hp2]; congr 1; omega,
            hp3, ?_⟩
          intro qi y hqi hy
          cases qi with
          | zero =>
            have hyx : (b, r) = y := by simpa using hy
            rw [← hyx]; exact lt_of_le_of_lt hxle hp3
          | succ qi' =>
            exact hp4 qi' y (by omega) (by simpa using hy)
      · intro y hy
        rcases List.mem_cons.mp hy with rfl | hy
        · exact le_trans hxle h1
        · exact h3 y hy

/-- With at least one strictly positive combined score, the lexical
inner loop returns the first index attaining the maximal combined
score. -/
theorem lexicalBest_pos {ps : List (ℚ × ℚ)}
    (hpos : ∃ y ∈ ps, 0 < (y.1 + y.2) / 2) :
    ∃ p : Nat,
      ps.get? p = some ((lexicalBest ps).1, (lexicalBest ps).2.1) ∧
      (lexicalBest ps).2.2 = (p : Int) ∧
      (∀ qi y, ps.get? qi = some y →
        (y.1 + y.2) / 2 ≤ ((lexicalBest ps).1 + (lexicalBest ps).2.1) / 2) ∧
      (∀ qi y, qi < p → ps.get? qi = some y →
        (y.1 + y.2) / 2 < ((lexicalBest ps).1 + (lexicalBest ps).2.1) / 2) := by
  obtain ⟨h1, h2, h3⟩ := lexAux_spec ps 0 (0, 0, -1)
  obtain ⟨y0, hy0, hy0pos⟩ := hpos
  rcases h2 with he | ⟨p, hp1, hp2, hp3, hp4⟩
  · exfalso
    have hle := h3 y0 hy0
    have he' : lexicalBest ps = ((0 : ℚ), (0 : ℚ), (-1 : Int)) := he
    rw [show lexAux 0 (0, 0, -1) ps = lexicalBest ps from rfl, he'] at hle
    simp at hle
    linarith
  · refine ⟨p, hp1, by simpa using hp2, ?_, hp4⟩
    intro qi y hy
    exact h3 y (List.get?_mem hy)

/-- With every candidate scoring zero on both lexical metrics, the
inner loop keeps its initial state: scores `(0, 0)` and index `-1`. -/
theorem lexicalBest_all_zero {ps : List (ℚ × ℚ)}
    (h : ∀ y ∈ ps, y = ((0 : ℚ), (0 : ℚ))) :
    lexicalBest ps = (0, 0, -1) := by
  obtain ⟨h1, h2, h3⟩ := lexAux_spec ps 0 (0, 0, -1)
  rcases h2 with he | ⟨p, hp1, hp2, hp3, hp4⟩
  · exact he
  · exfalso
    have hmem := List.get?_mem hp1
    have hz := h _ hmem
    have hzz : (lexicalBest ps).1 = 0 ∧ (lexicalBest ps).2.1 = 0 := by
      have h1z := congrArg Prod.fst hz
      have h2z := congrArg (fun q => q.2) hz
      exact ⟨h1z, h2z⟩
    rw [show lexAux 0 (0, 0, -1) ps = lexicalBest ps from rfl] at hp3
    rw [hzz.1, hzz.2] at hp3
    simp at hp3

/-- Claim C2 counterexample: in `compute_lexical_recall`, when every
candidate's BLEU and ROUGE scores are 0 for a reference item, the
returned candidate index is the `-1` sentinel, not the first-occurring
candidate index 0. -/
theorem lexical_all_zero_returns_no_match :
    (compute_lexical_recall (fun _ _ => 0) (fun _ _ => 0) ["r"] ["c"]).1 =
      [((0 : ℚ), (0 : ℚ), (-1 : Int))] ∧
    ((-1 : Int) ≠ 0) := by
  have hz : lexicalBest [((0 : ℚ), (0 : ℚ))] = (0, 0, -1) :=
    lexicalBest_all_zero (fun y hy => by simpa using hy)
  constructor
  · show [lexicalBest [((0 : ℚ), (0 : ℚ))]] = [((0 : ℚ), (0 : ℚ), (-1 : Int))]
    rw [hz]
  · decide

/-- Claim C2 (amended): for each reference index, every metric's
detail list carries the row reduction of that reference's score row.
The bi-encoder and BLEURT reductions always return the first-occurring
maximal candidate index; the lexical reduction does so whenever some
candidate has a strictly positive combined score, and returns
`(0, 0, -1)` when every candidate's scores are zero. -/
theorem best_match_first_argmax :
    (∀ (bleu rouge : String → String → ℚ) (gts preds : List String)
      (i : Nat) (g : String), gts.get? i = some g →
      (compute_lexical_recall bleu rouge gts preds).1.get? i =
        some (lexicalBest (preds.map fun p => (bleu g p, rouge g p)))) ∧
    (∀ (cos : String → String → ℚ) (gts preds : List String)
      (i : Nat) (g : String), gts.get? i = some g →
      (compute_bi_encoder_score cos gts preds).1.get? i =
        some (rowMaxFirst (preds.map (cos g)))) ∧
    (∀ (bl : String → String → ℚ) (gts preds : List String)
      (i : Nat) (g : String), gts.get? i = some g → preds ≠ [] →
      (compute_bleurt_score bl gts preds).1.get? i =
        some ((rowMaxFirst (preds.map (bl g))).1,
          ((rowMaxFirst (preds.map (bl g))).2 : Int))) ∧
    (∀ row : List ℚ, row ≠ [] →
      row.get? (rowMaxFirst row).2 = some (rowMaxFirst row).1 ∧
      (∀ j y, row.get? j = some y → y ≤ (rowMaxFirst row).1) ∧
      (∀ j y, j < (rowMaxFirst row).2 → row.get? j = some y →
        y < (rowMaxFirst row).1)) ∧
    (∀ ps : List (ℚ × ℚ), (∃ y ∈ ps, 0 < (y.1 + y.2) / 2) →
      ∃ p : Nat,
        ps.get? p = some ((lexicalBest ps).1, (lexicalBest ps).2.1) ∧
        (lexicalBest ps).2.2 = (p : Int) ∧
        (∀ qi y, ps.get? qi = some y →
          (y.1 + y.2) / 2 ≤
            ((lexicalBest ps).1 + (lexicalBest ps).2.1) / 2) ∧
        (∀ qi y, qi < p → ps.get? qi = some y →
          (y.1 + y.2) / 2 <
            ((lexicalBest ps).1 + (lexicalBest ps).2.1) / 2)) ∧
    (∀ ps : List (ℚ × ℚ), (∀ y ∈ ps, y = ((0 : ℚ), (0 : ℚ))) →
      lexicalBest ps = (0, 0, -1)) := by
  refine ⟨?_, ?_, ?_, ?_, ?_, ?_⟩
  · intro bleu rouge gts preds i g hg
    show (gts.map fun g0 =>
      lexicalBest (preds.map fun p => (bleu g0 p, rouge g0 p))).get? i = _
    rw [List.get?_map, hg]
    rfl
  · intro cos gts preds i g hg
    show (gts.map fun g0 => rowMaxFirst (preds.map (cos g0))).get? i = _
    rw [List.get?_map, hg]
    rfl
  · intro bl gts preds i g hg hp
    have hgne : gts.length ≠ 0 := by
      intro hz
      rw [List.length_eq_zero.mp hz] at hg
      cases hg
    have hpne : preds.length ≠ 0 := fun hz => hp (List.length_eq_zero.mp hz)
    have hred : (compute_bleurt_score bl gts preds).1 =
        gts.map fun g0 =>
          ((rowMaxFirst (preds.map (bl g0))).1,
            ((rowMaxFirst (preds.map (bl g0))).2 : Int)) := by
      simp only [compute_bleurt_score, hgne, hpne, or_self, if_false]
    rw [hred, List.get?_map, hg]
    rfl
  · exact rowMaxFirst_first_argmax
  · exact fun ps h => lexicalBest_pos h
  · exact fun ps h => lexicalBest_all_zero h

/-- Witness for C2's amended theorem at one-element and two-element
concrete inputs. -/
theorem best_match_first_argmax_witness :
    ((compute_lexical_recall (fun _ _ => 1) (fun _ _ => 1) ["r"] ["c"]).1.get? 0 =
      some (lexicalBest (["c"].map fun _ => ((1 : ℚ), (1 : ℚ))))) ∧
    ((compute_bi_encoder_score (fun _ _ => 1) ["r"] ["c"]).1.get? 0 =
      some (rowMaxFirst (["c"].map fun _ => (1 : ℚ)))) ∧
    ((compute_bleurt_score (fun _ _ => 1) ["r"] ["c"]).1.get? 0 =
      some ((rowMaxFirst (["c"].map fun _ => (1 : ℚ))).1,
        ((rowMaxFirst (["c"].map fun _ => (1 : ℚ))).2 : Int))) ∧
    ([(5 : ℚ), 3].get? (rowMaxFirst [5, 3]).2 = some (rowMaxFirst [5, 3]).1 ∧
      (∀ j y, [(5 : ℚ), 3].get? j = some y → y ≤ (rowMaxFirst [5, 3]).1) ∧
      (∀ j y, j < (rowMaxFirst [5, 3]).2 → [(5 : ℚ), 3].get? j = some y →
        y < (rowMaxFirst [5, 3]).1)) ∧
    (∃ p : Nat,
      [((1 : ℚ), (1 : ℚ))].get? p =
        some ((lexicalBest [((1 : ℚ), (1 : ℚ))]).1,
          (lexicalBest [((1 : ℚ), (1 : ℚ))]).2.1) ∧
      (lexicalBest [((1 : ℚ), (1 : ℚ))]).2.2 = (p : Int) ∧
      (∀ qi y, [((1 : ℚ), (1 : ℚ))].get? qi = some y →
        (y.1 + y.2) / 2 ≤ ((lexicalBest [((1 : ℚ), (1 : ℚ))]).1 +
          (lexicalBest [((1 : ℚ), (1 : ℚ))]).2.1) / 2) ∧
      (∀ qi y, qi < p → [((1 : ℚ), (1 : ℚ))].get? qi = some y →
        (y.1 + y.2) / 2 < ((lexicalBest [((1 : ℚ), (1 : ℚ))]).1 +
          (lexicalBest [((1 : ℚ), (1 : ℚ))]).2.1) / 2)) ∧
    lexicalBest [((0 : ℚ), (0 : ℚ))] = (0, 0, -1) :=
  ⟨best_match_first_argmax.1 (fun _ _ => 1) (fun _ _ => 1) ["r"] ["c"] 0 "r" rfl,
   best_match_first_argmax.2.1 (fun _ _ => 1) ["r"] ["c"] 0 "r" rfl,
   best_match_first_argmax.2.2.1 (fun _ _ => 1) ["r"] ["c"] 0 "r" rfl
     (by decide),
   best_match_first_argmax.2.2.2.1 [5, 3] (by decide),
   best_match_first_argmax.2.2.2.2.1 [((1 : ℚ), (1 : ℚ))]
     ⟨(1, 1), by simp, by norm_num⟩,
   best_match_first_argmax.2.2.2.2.2 [((0 : ℚ), (0 : ℚ))]
     (fun y hy => by simpa using hy)⟩

/-! ## Claim C3: degenerate inputs to `evaluate_sample` -/

/-- Claim C3 counterexample: on an empty candidate list,
`evaluate_sample` returns a record that carries the `"error"` marker
(`"Missing questions"`), i.e. it does signal an error, with zero
per-reference best-match pairs. -/
theorem evaluate_sample_empty_signals_error :
    evaluate_sample (fun _ _ => 0) (fun _ _ => 0) (fun _ _ => 0) (fun _ _ => 0)
        7 [⟨"q", [], none⟩] [] =
      .err 7 1 0 "Missing questions" ∧
    hasErrorMarker (evaluate_sample (fun _ _ => 0) (fun _ _ => 0)
      (fun _ _ => 0) (fun _ _ => 0) 7 [⟨"q", [], none⟩] []) = true ∧
    pairsOf (evaluate_sample (fun _ _ => 0) (fun _ _ => 0) (fun _ _ => 0)
      (fun _ _ => 0) 7 [⟨"q", [], none⟩] []) = [] := by
  exact ⟨rfl, rfl, rfl⟩

/-- Claim C3 (amended): on an empty reference or candidate list,
`evaluate_sample` raises nothing and produces zero per-reference
best-match pairs, but it returns early with an error-marked record
(`"error": "Missing questions"`) rather than an unmarked empty result;
only the inner `compute_bleurt_score` guard returns an empty detail
list with no error marker. -/
theorem evaluate_sample_empty_input
    (bleu rouge cos bl : String → String → ℚ) (sampleId : Nat)
    (gtQuestions predQuestions : List EvalQuestion)
    (h : gtQuestions = [] ∨ predQuestions = []) :
    evaluate_sample bleu rouge cos bl sampleId gtQuestions predQuestions =
      .err sampleId gtQuestions.length predQuestions.length
        "Missing questions" ∧
    pairsOf (evaluate_sample bleu rouge cos bl sampleId gtQuestions
      predQuestions) = [] ∧
    hasErrorMarker (evaluate_sample bleu rouge cos bl sampleId gtQuestions
      predQuestions) = true ∧
    (∀ predTexts : List String, compute_bleurt_score bl [] predTexts =
      ([], 0)) := by
  have hemp : (gtQuestions.isEmpty || predQuestions.isEmpty) = true := by
    rcases h with rfl | rfl <;> simp
  have he : evaluate_sample bleu rouge cos bl sampleId gtQuestions
      predQuestions = .err sampleId gtQuestions.length predQuestions.length
        "Missing questions" := by
    unfold evaluate_sample
    rw [hemp]
    rfl
  refine ⟨he, by rw [he]; rfl, by rw [he]; rfl, ?_⟩
  intro predTexts
  simp [compute_bleurt_score]

/-- Witness for C3's amended theorem at an empty reference list. -/
theorem evaluate_sample_empty_input_witness :
    evaluate_sample (fun _ _ => 0) (fun _ _ => 0) (fun _ _ => 0) (fun _ _ => 0)
        3 [] [⟨"p", [], none⟩] =
      .err 3 0 1 "Missing questions" ∧
    pairsOf (evaluate_sample (fun _ _ => 0) (fun _ _ => 0) (fun _ _ => 0)
      (fun _ _ => 0) 3 [] [⟨"p", [], none⟩]) = [] ∧
    hasErrorMarker (evaluate_sample (fun _ _ => 0) (fun _ _ => 0)
      (fun _ _ => 0) (fun _ _ => 0) 3 [] [⟨"p", [], none⟩]) = true ∧
    (∀ predTexts : List String,
      compute_bleurt_score (fun _ _ => (0 : ℚ)) [] predTexts = ([], 0)) :=
  evaluate_sample_empty_input (fun _ _ => 0) (fun _ _ => 0) (fun _ _ => 0)
    (fun _ _ => 0) 3 [] [⟨"p", [], none⟩] (Or.inl rfl)
